import Mathlib

/-!
PackBits codec and favicon size tables of `icon-gen`.

A shallow embedding of `src/lib/packbits.js` (the run-length codec) and of the
size tables of `src/lib/favicon-generator.js`, followed by the properties
proved about them.

Modelling conventions.

* A JavaScript array of numbers is a `List Int`.  An array read `src[k]` is
  `src[k]?`: `none` stands for `undefined`, the value of a read past the end.
* `value & 0xFF` on an integer is `value % 256` (the remainder of `Int` is
  never negative), and `undefined & 0xFF` is `0`.
* `(value << 24) >> 24` wraps the shifted value to 32 bits and divides it,
  rounding down, by `2 ^ 24`.
* The `for` loops, whose index is also advanced by the loop body, are
  recursive functions on the index; their termination measure is the distance
  of the index to the loop bound.
-/

namespace PackBits

/-! ## Embedding of `packbits.js` -/

/-- Max length of PackBits literal. -/
def MAX_LITERAL_LENGTH : Nat := 127

/-- The conversion `ToInt32` of JavaScript on an integer: wrap to the signed
32-bit range. -/
def toInt32 (v : Int) : Int :=
  (v + 2147483648) % 4294967296 - 2147483648

/-- Source `_toUInt8 (value)`: `value & 0xFF`. -/
def _toUInt8 (value : Int) : Int :=
  value % 256

/-- Source `_toUInt8 (src[k])` on an array read: `undefined & 0xFF` is `0`. -/
def _toUInt8Elem (value : Option Int) : Int :=
  match value with
  | some v => _toUInt8 v
  | none => 0

/-- Source `_toInt8 (value)`: `(value << 24) >> 24`. -/
def _toInt8 (value : Int) : Int :=
  toInt32 (value * 16777216) / 16777216

/-- Source `_literalToResult (literals)`. -/
def _literalToResult (literals : List Int) : List Int :=
  if literals.length = 0 then []
  else [_toUInt8 ((literals.length : Int) - 1)] ++ literals

/-- The inner loop `for (let j = 2; j <= maxJ; ++j)` of `pack`, entered at `j`
with the current `runLength`.  The result is `some (j, runLength)` when the
loop leaves through `break` (with the values `j` and `runLength` have there),
and `none` when it runs to its bound, so that `hitMax` is still `true`. -/
def runLoop (src : List Int) (current : Int) (i maxJ j runLength : Nat) :
    Option (Nat × Nat) :=
  if j ≤ maxJ then
    if some current ≠ src[i + j]? then some (j, runLength)
    else runLoop src current i maxJ (j + 1) (runLength + 1)
  else none
termination_by maxJ + 1 - j

/-- The outer loop `for (let i = 0, max = src.length; i < max; ++i)` of
`pack`, entered at index `i` with the current `dest` and `literals`. -/
def packLoop (src : List Int) (max i : Nat) (dest literals : List Int) : List Int :=
  if i < max then
    let current := _toUInt8Elem src[i]?
    if i + 1 < max then
      let next := _toUInt8Elem src[i + 1]?
      if current = next then
        let dest := dest ++ _literalToResult literals
        let maxJ := if max ≤ i + MAX_LITERAL_LENGTH then max - i - 1 else MAX_LITERAL_LENGTH
        match runLoop src current i maxJ 2 1 with
        | some (j, runLength) =>
          -- `i += j - 1`, the two pushes, `break`, and then `++i` of the loop
          packLoop src max (i + (j - 1) + 1)
            (dest ++ [_toUInt8 (0 - (runLength : Int)), current]) []
        | none =>
          -- `hitMax`: the two pushes, `i += maxJ`, and then `++i` of the loop
          packLoop src max (i + maxJ + 1)
            (dest ++ [_toUInt8 (0 - (maxJ : Int)), current]) []
      else
        if (literals ++ [current]).length = MAX_LITERAL_LENGTH then
          packLoop src max (i + 1) (dest ++ _literalToResult (literals ++ [current])) []
        else
          packLoop src max (i + 1) dest (literals ++ [current])
    else
      packLoop src max (i + 1) (dest ++ _literalToResult (literals ++ [current])) []
  else dest
termination_by max - i

/-- Source `pack (src)`: compress PackBits binary. -/
def pack (src : List Int) : List Int :=
  if ¬ (src.length ≠ 0 ∧ 0 < src.length) then []
  else packLoop src src.length 0 [] []

/-- The loop `for (let j = 0; j < total; ++j) dest.push(_toUInt8(src[i + j + 1]))`
of `unpack`, entered at `j`. -/
def literalLoop (src : List Int) (i total j : Nat) (dest : List Int) : List Int :=
  if j < total then
    literalLoop src i total (j + 1) (dest ++ [_toUInt8Elem src[i + j + 1]?])
  else dest
termination_by total - j

/-- The loop `for (let j = 0; j < total; ++j) dest.push(_toUInt8(src[i + 1]))`
of `unpack`, entered at `j`. -/
def repeatLoop (src : List Int) (i total j : Nat) (dest : List Int) : List Int :=
  if j < total then
    repeatLoop src i total (j + 1) (dest ++ [_toUInt8Elem src[i + 1]?])
  else dest
termination_by total - j

/-- The outer loop `for (let i = 0, max = src.length; i < max; ++i)` of
`unpack`, entered at index `i` with the current `dest`. -/
def unpackLoop (src : List Int) (max i : Nat) (dest : List Int) : List Int :=
  if i < max then
    let count := _toInt8 (_toUInt8Elem src[i]?)
    if count = -128 then
      unpackLoop src max (i + 1) dest
    else if 0 ≤ count then
      let total := (count + 1).toNat
      -- `i += total`, and then `++i` of the loop
      unpackLoop src max (i + total + 1) (literalLoop src i total 0 dest)
    else
      let total := (|count| + 1).toNat
      -- `++i` of the body, and then `++i` of the loop
      unpackLoop src max (i + 1 + 1) (repeatLoop src i total 0 dest)
  else dest
termination_by max - i

/-- Source `unpack (src)`: decompress PackBits compressed binary. -/
def unpack (src : List Int) : List Int :=
  unpackLoop src src.length 0 []

/-! ## Auxiliary definitions for the proofs -/

/-- The scan of `pack` started on the input `rest` with `literals` pending:
the loop of `pack` at index `0` with an empty `dest`. -/
def packFrom (rest literals : List Int) : List Int :=
  packLoop rest rest.length 0 [] literals

/-- The repeat chunk that the loop body of `pack` emits at index `0` of `rest`
when the first two bytes agree: the number of input bytes it covers (the
increase of `i`, the final `++i` included) and its control byte. -/
def runChunk (rest : List Int) : Nat × Int :=
  let current := _toUInt8Elem rest[0]?
  let maxJ := if rest.length ≤ 0 + MAX_LITERAL_LENGTH then rest.length - 0 - 1
    else MAX_LITERAL_LENGTH
  match runLoop rest current 0 maxJ 2 1 with
  | some (j, runLength) => (0 + (j - 1) + 1, _toUInt8 (0 - (runLength : Int)))
  | none => (0 + maxJ + 1, _toUInt8 (0 - (maxJ : Int)))

/-- A chunk of an encoded sequence: a literal chunk carrying `bytes`, or a
repeat chunk standing for `n` copies of `v`. -/
inductive Chunk where
  | literal (bytes : List Int)
  | run (n : Nat) (v : Int)
  deriving DecidableEq, Repr

/-- The control byte of a chunk: `n - 1` for a literal chunk of `n` bytes,
`256 - (n - 1)` for a repeat chunk of `n` copies. -/
def Chunk.control : Chunk → Int
  | .literal bytes => (bytes.length : Int) - 1
  | .run n _ => 256 - ((n : Int) - 1)

/-- The bytes of a chunk in the encoded sequence: `[n - 1, b1 .. bn]` for a
literal chunk and `[256 - (n - 1), v]` for a repeat chunk. -/
def Chunk.encode : Chunk → List Int
  | .literal bytes => [(bytes.length : Int) - 1] ++ bytes
  | .run n v => [256 - ((n : Int) - 1), v]

/-- The bytes a chunk decodes to. -/
def Chunk.decode : Chunk → List Int
  | .literal bytes => bytes
  | .run n v => List.replicate n v

/-- A complete chunk: a literal chunk of 1 to 128 bytes, or a repeat chunk of
2 to 128 copies of a byte. -/
def Chunk.WellFormed : Chunk → Prop
  | .literal bytes => 1 ≤ bytes.length ∧ bytes.length ≤ 128 ∧ ∀ b ∈ bytes, 0 ≤ b ∧ b ≤ 255
  | .run n v => 2 ≤ n ∧ n ≤ 128 ∧ 0 ≤ v ∧ v ≤ 255

instance : DecidablePred Chunk.WellFormed := fun c =>
  match c with
  | .literal bytes =>
    inferInstanceAs (Decidable
      (1 ≤ bytes.length ∧ bytes.length ≤ 128 ∧ ∀ b ∈ bytes, 0 ≤ b ∧ b ≤ 255))
  | .run n v => inferInstanceAs (Decidable (2 ≤ n ∧ n ≤ 128 ∧ 0 ≤ v ∧ v ≤ 255))

/-- A chunk as `pack` emits it: complete, and a literal chunk carries at most
`MAX_LITERAL_LENGTH` bytes. -/
def Chunk.Packed (c : Chunk) : Prop :=
  c.WellFormed ∧ ∀ bytes, c = Chunk.literal bytes → bytes.length ≤ MAX_LITERAL_LENGTH

/-- The encoded sequence made of the chunks `cs`. -/
def encodeChunks (cs : List Chunk) : List Int :=
  (cs.map Chunk.encode).flatten

/-- The raw sequence the chunks `cs` decode to. -/
def decodeChunks (cs : List Chunk) : List Int :=
  (cs.map Chunk.decode).flatten

/-- The outcome of a call of a decoder: the decoded sequence it returns, or
the error `CorruptData`. -/
inductive Outcome where
  | ok (dest : List Int)
  | corruptData
  deriving DecidableEq, Repr

/-- The outcome of the call `unpack (src)` on an array: the source has no
`throw`, and a read past the end of an array is no error in JavaScript, so
that every call returns its `dest`. -/
def unpackOutcome (src : List Int) : Outcome :=
  Outcome.ok (unpack src)

/-- An encoded sequence is truncated when, after complete chunks, a control
byte declares a literal run (needing `c + 1` following bytes) or a repeat run
(needing one following byte) whose required bytes lie beyond the end. -/
def Truncated (src : List Int) : Prop :=
  ∃ (cs : List Chunk) (c : Int) (d : List Int),
    (∀ k ∈ cs, k.WellFormed) ∧ (∀ b ∈ d, 0 ≤ b ∧ b ≤ 255)
      ∧ src = encodeChunks cs ++ [c] ++ d
      ∧ ((0 ≤ c ∧ c ≤ 127 ∧ (d.length : Int) < c + 1) ∨ (129 ≤ c ∧ c ≤ 255 ∧ d = []))

/-- The consecutive blocks of `x` of `MAX_LITERAL_LENGTH` = 127 bytes, the
last block holding the remaining 1 to 127 bytes (the words of the
specification for the literal chunks of a sequence without repeats). -/
def literalBlocks (x : List Int) : List (List Int) :=
  if x = [] then []
  else x.take MAX_LITERAL_LENGTH :: literalBlocks (x.drop MAX_LITERAL_LENGTH)
termination_by x.length
decreasing_by
  have hpos : 0 < x.length := List.length_pos.mpr (by assumption)
  simp only [List.length_drop, MAX_LITERAL_LENGTH]
  omega

/-- The concatenation, over the blocks `bs`, of `[blockLength - 1] ++ block`. -/
def encodeBlocks (bs : List (List Int)) : List Int :=
  (bs.map (fun block => [(block.length : Int) - 1] ++ block)).flatten

/-- The chunks emitted when the pending literals are flushed: none when there
are no pending literals, one literal chunk otherwise. -/
def flushChunks (literals : List Int) : List Chunk :=
  if literals = [] then [] else [Chunk.literal literals]

/-- The scan of `pack` at the level of chunks: `PackScan rest literals cs` says
that the loop of `pack`, on the input `rest` with `literals` pending, emits
the chunks `cs`.  One rule for each path through the loop body. -/
inductive PackScan : List Int → List Int → List Chunk → Prop
  | done : PackScan [] [] []
  | last (a : Int) (literals : List Int) :
      PackScan [a] literals [Chunk.literal (literals ++ [_toUInt8 a])]
  | full (a b : Int) (rest literals : List Int) (cs : List Chunk) :
      _toUInt8 a ≠ _toUInt8 b →
      (literals ++ [_toUInt8 a]).length = MAX_LITERAL_LENGTH →
      PackScan (b :: rest) [] cs →
      PackScan (a :: b :: rest) literals (Chunk.literal (literals ++ [_toUInt8 a]) :: cs)
  | push (a b : Int) (rest literals : List Int) (cs : List Chunk) :
      _toUInt8 a ≠ _toUInt8 b →
      (literals ++ [_toUInt8 a]).length ≠ MAX_LITERAL_LENGTH →
      PackScan (b :: rest) (literals ++ [_toUInt8 a]) cs →
      PackScan (a :: b :: rest) literals cs
  | run (a b : Int) (rest literals : List Int) (cs : List Chunk) :
      _toUInt8 a = _toUInt8 b →
      PackScan ((a :: b :: rest).drop (runChunk (a :: b :: rest)).1) [] cs →
      PackScan (a :: b :: rest) literals
        (flushChunks literals ++ Chunk.run (runChunk (a :: b :: rest)).1 (_toUInt8 a) :: cs)

/-- The body of the outer loop of `pack` at index `i`: the values of `i`,
`dest` and `literals` when the body ends, before the `++i` of the loop. -/
def packBody (src : List Int) (max i : Nat) (dest literals : List Int) :
    Nat × List Int × List Int :=
  let current := _toUInt8Elem src[i]?
  if i + 1 < max then
    let next := _toUInt8Elem src[i + 1]?
    if current = next then
      let dest := dest ++ _literalToResult literals
      let maxJ := if max ≤ i + MAX_LITERAL_LENGTH then max - i - 1 else MAX_LITERAL_LENGTH
      match runLoop src current i maxJ 2 1 with
      | some (j, runLength) =>
        (i + (j - 1), dest ++ [_toUInt8 (0 - (runLength : Int)), current], [])
      | none => (i + maxJ, dest ++ [_toUInt8 (0 - (maxJ : Int)), current], [])
    else
      if (literals ++ [current]).length = MAX_LITERAL_LENGTH then
        (i, dest ++ _literalToResult (literals ++ [current]), [])
      else (i, dest, literals ++ [current])
  else (i, dest ++ _literalToResult (literals ++ [current]), [])

/-- The outer loop of `pack` run for at most `fuel` iterations: `none` when
the loop has not ended by then. -/
def packIterate (fuel : Nat) (src : List Int) (max i : Nat) (dest literals : List Int) :
    Option (List Int) :=
  match fuel with
  | 0 => if i < max then none else some dest
  | fuel + 1 =>
    if i < max then
      packIterate fuel src max ((packBody src max i dest literals).1 + 1)
        (packBody src max i dest literals).2.1 (packBody src max i dest literals).2.2
    else some dest

/-- The body of the outer loop of `unpack` at index `i`: the values of `i` and
`dest` when the body ends, before the `++i` of the loop. -/
def unpackBody (src : List Int) (i : Nat) (dest : List Int) : Nat × List Int :=
  let count := _toInt8 (_toUInt8Elem src[i]?)
  if count = -128 then (i, dest)
  else if 0 ≤ count then
    let total := (count + 1).toNat
    (i + total, literalLoop src i total 0 dest)
  else
    let total := (|count| + 1).toNat
    (i + 1, repeatLoop src i total 0 dest)

/-- The outer loop of `unpack` run for at most `fuel` iterations: `none` when
the loop has not ended by then. -/
def unpackIterate (fuel : Nat) (src : List Int) (max i : Nat) (dest : List Int) :
    Option (List Int) :=
  match fuel with
  | 0 => if i < max then none else some dest
  | fuel + 1 =>
    if i < max then
      unpackIterate fuel src max ((unpackBody src i dest).1 + 1) (unpackBody src i dest).2
    else some dest

/-- The sum of the run lengths declared by the control bytes that the loop of
`unpack` meets from index `i` on, added to `total`: `count + 1` for a literal
run, `|count| + 1` for a repeat run, nothing for the byte `0x80`. -/
def declaredLoop (src : List Int) (max i total : Nat) : Nat :=
  if i < max then
    let count := _toInt8 (_toUInt8Elem src[i]?)
    if count = -128 then
      declaredLoop src max (i + 1) total
    else if 0 ≤ count then
      declaredLoop src max (i + (count + 1).toNat + 1) (total + (count + 1).toNat)
    else
      declaredLoop src max (i + 1 + 1) (total + (|count| + 1).toNat)
  else total
termination_by max - i

end PackBits

namespace FaviconGenerator

/-! ## Embedding of the size tables of `favicon-generator.js` -/

/-- Sizes required for the FAVICON PNG files. -/
def REQUIRED_PNG_IMAGE_SIZES : List Int := [32, 57, 72, 96, 120, 128, 144, 152, 195, 228]

/-- Sizes required for the FAVICON ICO file. -/
def REQUIRED_ICO_IMAGE_SIZES : List Int := [16, 24, 32, 48, 64]

/-- The method `self.filter ((a, i, self) => p a i self)` of a JavaScript
array: the elements, in order, at which the callback holds. -/
def filterWithIndex (p : Int → Nat → List Int → Bool) (self : List Int) : List Int :=
  (self.enum.filter (fun ia => p ia.2 ia.1 self)).map Prod.snd

/-- The method `sort ((a, b) => a - b)` of a JavaScript array: a stable sort
in which `a` stays before `b` when the comparator `a - b` is not positive. -/
def sortBySubtraction (self : List Int) : List Int :=
  self.insertionSort (fun a b => a - b ≤ 0)

/-- Sizes required for the FAVICON files. -/
def REQUIRED_IMAGE_SIZES : List Int :=
  sortBySubtraction
    (filterWithIndex (fun a i self => decide (self.indexOf a = i))
      (REQUIRED_PNG_IMAGE_SIZES ++ REQUIRED_ICO_IMAGE_SIZES))

/-- Source `GetRequiredFavoriteImageSizes ()`: get the size of the required PNG. -/
def GetRequiredFavoriteImageSizes : List Int :=
  REQUIRED_IMAGE_SIZES

/-- An element of `PNG_FILE_INFOS`: the file name and the size of an icon. -/
structure PngFileInfo where
  name : String
  size : Int
  deriving DecidableEq, Repr

/-- Collection of the file name and size of the icon. -/
def PNG_FILE_INFOS : List PngFileInfo :=
  [ { name := "favicon-32.png", size := 32 },
    { name := "favicon-57.png", size := 57 },
    { name := "favicon-72.png", size := 72 },
    { name := "favicon-96.png", size := 96 },
    { name := "favicon-120.png", size := 120 },
    { name := "favicon-128.png", size := 128 },
    { name := "favicon-144.png", size := 144 },
    { name := "favicon-152.png", size := 152 },
    { name := "favicon-195.png", size := 195 },
    { name := "favicon-228.png", size := 228 } ]

/-- The call `infos.some ((png) => ..)` of `fileNameFromSize`, with the
variable `name` it assigns: the elements are visited in order until the
callback returns `true`, which it does, after `name = png.name`, at the first
element with `png.size === size`. -/
def someLoop (infos : List PngFileInfo) (size : Int) (name : Option String) :
    Option String :=
  match infos with
  | [] => name
  | png :: rest => if png.size = size then some png.name else someLoop rest size name

/-- Source `fileNameFromSize (size)`: get the file names corresponding to image
size; `none` stands for `null`. -/
def fileNameFromSize (size : Int) : Option String :=
  someLoop PNG_FILE_INFOS size none

end FaviconGenerator

namespace PackBits

/-! ## Byte conversions -/

theorem toUInt8_range (v : Int) : 0 ≤ _toUInt8 v ∧ _toUInt8 v ≤ 255 := by
  unfold _toUInt8; omega

theorem toUInt8_of_byte (b : Int) (h0 : 0 ≤ b) (h1 : b ≤ 255) : _toUInt8 b = b := by
  unfold _toUInt8; omega

theorem toUInt8_idem (v : Int) : _toUInt8 (_toUInt8 v) = _toUInt8 v := by
  unfold _toUInt8; omega

theorem toUInt8Elem_some (v : Int) : _toUInt8Elem (some v) = _toUInt8 v := rfl

theorem toUInt8Elem_none : _toUInt8Elem none = 0 := rfl

theorem toUInt8Elem_range (e : Option Int) : 0 ≤ _toUInt8Elem e ∧ _toUInt8Elem e ≤ 255 := by
  cases e with
  | none => simp [_toUInt8Elem]
  | some v => exact toUInt8_range v

theorem toInt8_of_small (u : Int) (h0 : 0 ≤ u) (h1 : u ≤ 127) : _toInt8 u = u := by
  unfold _toInt8 toInt32; omega

theorem toInt8_of_large (u : Int) (h0 : 128 ≤ u) (h1 : u ≤ 255) : _toInt8 u = u - 256 := by
  unfold _toInt8 toInt32; omega

/-! ## The loops of `unpack` in closed form -/

theorem literalLoop_eq (src : List Int) (i total : Nat) :
    ∀ (n j : Nat) (dest : List Int), total - j = n →
      literalLoop src i total j dest
        = dest ++ (List.range' j n).map (fun k => _toUInt8Elem src[i + k + 1]?) := by
  intro n
  induction n with
  | zero =>
    intro j dest h
    rw [literalLoop, if_neg (by omega)]
    simp
  | succ n ih =>
    intro j dest h
    rw [literalLoop, if_pos (by omega), ih (j + 1) _ (by omega)]
    simp [List.range'_succ]

theorem repeatLoop_eq (src : List Int) (i total : Nat) :
    ∀ (n j : Nat) (dest : List Int), total - j = n →
      repeatLoop src i total j dest
        = dest ++ List.replicate n (_toUInt8Elem src[i + 1]?) := by
  intro n
  induction n with
  | zero =>
    intro j dest h
    rw [repeatLoop, if_neg (by omega)]
    simp
  | succ n ih =>
    intro j dest h
    rw [repeatLoop, if_pos (by omega), ih (j + 1) _ (by omega)]
    simp [List.replicate_succ]

/-- Reading a concatenation past its first part. -/
theorem getElem?_append_shift (pre src : List Int) (k : Nat) :
    (pre ++ src)[pre.length + k]? = src[k]? := by
  rw [List.getElem?_append_right (by omega)]
  congr 1
  omega

theorem literalLoop_shift (pre src : List Int) (i total : Nat) (dest : List Int) :
    literalLoop (pre ++ src) (pre.length + i) total 0 dest
      = dest ++ literalLoop src i total 0 [] := by
  rw [literalLoop_eq _ _ _ total 0 dest (by omega), literalLoop_eq _ _ _ total 0 [] (by omega)]
  simp only [List.nil_append, Nat.add_assoc, getElem?_append_shift]

theorem repeatLoop_shift (pre src : List Int) (i total : Nat) (dest : List Int) :
    repeatLoop (pre ++ src) (pre.length + i) total 0 dest
      = dest ++ repeatLoop src i total 0 [] := by
  rw [repeatLoop_eq _ _ _ total 0 dest (by omega), repeatLoop_eq _ _ _ total 0 [] (by omega)]
  simp only [List.nil_append, Nat.add_assoc, getElem?_append_shift]

/-- The scan of `unpack` from index `i` on depends only on the part of the
input from `i` on, and only appends to `dest`. -/
theorem unpackLoop_shift (src : List Int) (max : Nat) :
    ∀ (n i : Nat) (pre dest : List Int), max - i = n →
      unpackLoop (pre ++ src) (pre.length + max) (pre.length + i) dest
        = dest ++ unpackLoop src max i [] := by
  intro n
  induction n using Nat.strong_induction_on with
  | _ n ih =>
    intro i pre dest h
    by_cases hi : i < max
    · have hi2 : pre.length + i < pre.length + max := by omega
      conv_lhs => rw [unpackLoop]
      conv_rhs => rw [unpackLoop]
      simp only [if_pos hi, if_pos hi2, getElem?_append_shift]
      have hL : ∀ (k : Nat) (d : List Int),
          unpackLoop (pre ++ src) (pre.length + max) (pre.length + i + k + 1) d
            = d ++ unpackLoop src max (i + k + 1) [] := by
        intro k d
        have := ih (max - (i + k + 1)) (by omega) (i + k + 1) pre d rfl
        simpa only [Nat.add_assoc] using this
      have hR : ∀ (k : Nat) (d : List Int),
          unpackLoop src max (i + k + 1) d = d ++ unpackLoop src max (i + k + 1) [] := by
        intro k d
        have := ih (max - (i + k + 1)) (by omega) (i + k + 1) [] d rfl
        simpa using this
      generalize _toInt8 (_toUInt8Elem src[i]?) = c
      by_cases h1 : c = -128
      · rw [if_pos h1, if_pos h1]
        exact hL 0 dest
      · rw [if_neg h1, if_neg h1]
        by_cases h2 : 0 ≤ c
        · rw [if_pos h2, if_pos h2, hL, hR _ (literalLoop src i (c + 1).toNat 0 []),
            literalLoop_shift, List.append_assoc]
        · rw [if_neg h2, if_neg h2]
          have h3 := hL 1 (repeatLoop (pre ++ src) (pre.length + i) (|c| + 1).toNat 0 dest)
          have h4 := hR 1 (repeatLoop src i (|c| + 1).toNat 0 [])
          simp only [Nat.add_assoc] at h3 h4 ⊢
          rw [h3, h4, ← Nat.add_assoc, repeatLoop_shift, List.append_assoc]
    · conv_lhs => rw [unpackLoop]
      conv_rhs => rw [unpackLoop]
      rw [if_neg hi, if_neg (by omega)]
      simp

theorem unpackLoop_past (src : List Int) (max i : Nat) (dest : List Int) (hi : max ≤ i) :
    unpackLoop src max i dest = dest := by
  rw [unpackLoop, if_neg (by omega)]

theorem unpack_nil : unpack [] = [] := by
  rw [unpack, unpackLoop_past _ _ _ _ (by simp)]

/-- The scan of `unpack` resumed at index `i` decodes the rest of the input. -/
theorem unpackLoop_drop (src : List Int) (i : Nat) (dest : List Int) :
    unpackLoop src src.length i dest = dest ++ unpack (src.drop i) := by
  by_cases hi : i ≤ src.length
  · have h := unpackLoop_shift (src.drop i) (src.length - i) _ 0 (src.take i) dest rfl
    have hl : (src.take i).length = i := by simp [hi]
    rw [List.take_append_drop, hl] at h
    have e : i + (src.length - i) = src.length := by omega
    rw [e] at h
    rw [unpack, List.length_drop]
    exact h
  · rw [unpackLoop_past _ _ _ _ (by omega), List.drop_eq_nil_of_le (by omega), unpack_nil]
    simp

/-- What `unpack` does at a control byte, in terms of the bytes after it. -/
theorem unpack_cons (c : Int) (rest : List Int) :
    unpack (c :: rest) =
      if _toInt8 (_toUInt8 c) = -128 then unpack rest
      else if 0 ≤ _toInt8 (_toUInt8 c) then
        (List.range (_toInt8 (_toUInt8 c) + 1).toNat).map (fun k => _toUInt8Elem rest[k]?)
          ++ unpack (rest.drop (_toInt8 (_toUInt8 c) + 1).toNat)
      else
        List.replicate (|_toInt8 (_toUInt8 c)| + 1).toNat (_toUInt8Elem rest[0]?)
          ++ unpack (rest.drop 1) := by
  conv_lhs => rw [unpack, unpackLoop]
  rw [if_pos (by simp)]
  simp only [List.getElem?_cons_zero, toUInt8Elem_some]
  generalize _toInt8 (_toUInt8 c) = s
  simp only [unpackLoop_drop, literalLoop_eq _ _ _ _ 0 [] rfl,
    repeatLoop_eq _ _ _ _ 0 [] rfl, List.nil_append, Nat.zero_add, Nat.sub_zero,
    List.drop_succ_cons, List.getElem?_cons_succ, List.range_eq_range', List.drop_zero]

theorem map_toUInt8_of_bytes (d : List Int) (hd : ∀ b ∈ d, 0 ≤ b ∧ b ≤ 255) :
    d.map _toUInt8 = d := by
  induction d with
  | nil => rfl
  | cons a t ih =>
    have ha := hd a (by simp)
    rw [List.map_cons, toUInt8_of_byte a ha.1 ha.2, ih (fun b hb => hd b (by simp [hb]))]

theorem map_range_read (d rest : List Int) :
    (List.range d.length).map (fun k => _toUInt8Elem (d ++ rest)[k]?) = d.map _toUInt8 := by
  apply List.ext_getElem
  · simp
  · intro k h1 h2
    simp only [List.length_map, List.length_range] at h1
    simp only [List.getElem_map, List.getElem_range]
    rw [List.getElem?_append_left h1, List.getElem?_eq_getElem h1, toUInt8Elem_some]

/-- A literal chunk in front of the input is copied, each byte masked. -/
theorem unpack_literal (c : Int) (d rest : List Int) (h0 : 0 ≤ c) (h1 : c ≤ 127)
    (hd : (d.length : Int) = c + 1) :
    unpack (c :: (d ++ rest)) = d.map _toUInt8 ++ unpack rest := by
  have hc : _toInt8 (_toUInt8 c) = c := by
    rw [toUInt8_of_byte c h0 (by omega), toInt8_of_small c h0 h1]
  have hn : (c + 1).toNat = d.length := by omega
  rw [unpack_cons, hc, if_neg (by omega), if_pos h0, hn, map_range_read,
    List.drop_left]

/-- A repeat chunk in front of the input is expanded. -/
theorem unpack_repeat (c v : Int) (rest : List Int) (h0 : 129 ≤ c) (h1 : c ≤ 255) :
    unpack (c :: v :: rest) = List.replicate (257 - c).toNat (_toUInt8 v) ++ unpack rest := by
  have hc : _toInt8 (_toUInt8 c) = c - 256 := by
    rw [toUInt8_of_byte c (by omega) h1, toInt8_of_large c (by omega) h1]
  have hn : (|c - 256| + 1).toNat = (257 - c).toNat := by
    rw [abs_of_neg (by omega)]
    congr 1
    omega
  rw [unpack_cons, hc, if_neg (by omega), if_neg (by omega), hn]
  simp [toUInt8Elem_some]

/-- The byte `0x80` in control position is skipped. -/
theorem unpack_noop (rest : List Int) : unpack (128 :: rest) = unpack rest := by
  have hc : _toInt8 (_toUInt8 128) = -128 := by decide
  rw [unpack_cons, hc, if_pos rfl]

/-! ## The run scan of `pack` -/

theorem runLoop_shift (pre src : List Int) (current : Int) (i maxJ : Nat) :
    ∀ (n j runLength : Nat), maxJ + 1 - j = n →
      runLoop (pre ++ src) current (pre.length + i) maxJ j runLength
        = runLoop src current i maxJ j runLength := by
  intro n
  induction n with
  | zero =>
    intro j rl h
    rw [runLoop, if_neg (by omega), runLoop, if_neg (by omega)]
  | succ n ih =>
    intro j rl h
    have hj : j ≤ maxJ := by omega
    conv_lhs => rw [runLoop]
    conv_rhs => rw [runLoop]
    rw [if_pos hj, if_pos hj, Nat.add_assoc, getElem?_append_shift,
      ih (j + 1) (rl + 1) (by omega)]

/-- When the run scan leaves through `break` at `j`, every position scanned
before `j` holds `current`, position `j` does not, and `runLength` has grown
with `j`. -/
theorem runLoop_some (src : List Int) (current : Int) (i maxJ : Nat) :
    ∀ (n j runLength j1 r1 : Nat), maxJ + 1 - j = n →
      runLoop src current i maxJ j runLength = some (j1, r1) →
      j ≤ j1 ∧ j1 ≤ maxJ ∧ r1 + j = runLength + j1
        ∧ (∀ k, j ≤ k → k < j1 → src[i + k]? = some current)
        ∧ src[i + j1]? ≠ some current := by
  intro n
  induction n with
  | zero =>
    intro j rl j1 r1 h hr
    rw [runLoop, if_neg (by omega)] at hr
    cases hr
  | succ n ih =>
    intro j rl j1 r1 h hr
    have hj : j ≤ maxJ := by omega
    rw [runLoop, if_pos hj] at hr
    by_cases hne : some current ≠ src[i + j]?
    · rw [if_pos hne] at hr
      cases hr
      exact ⟨Nat.le_refl _, by omega, rfl, fun k h1 h2 => absurd h1 (by omega),
        fun e => hne e.symm⟩
    · rw [if_neg hne] at hr
      obtain ⟨a, b, c, d, e⟩ := ih (j + 1) (rl + 1) j1 r1 (by omega) hr
      refine ⟨by omega, b, by omega, ?_, e⟩
      intro k h1 h2
      by_cases hk : k = j
      · subst hk
        exact (not_not.mp hne).symm
      · exact d k (by omega) h2

/-- When the run scan runs to its bound, every scanned position holds
`current`. -/
theorem runLoop_none (src : List Int) (current : Int) (i maxJ : Nat) :
    ∀ (n j runLength : Nat), maxJ + 1 - j = n →
      runLoop src current i maxJ j runLength = none →
      ∀ k, j ≤ k → k ≤ maxJ → src[i + k]? = some current := by
  intro n
  induction n with
  | zero =>
    intro j rl h hr k h1 h2
    omega
  | succ n ih =>
    intro j rl h hr
    have hj : j ≤ maxJ := by omega
    rw [runLoop, if_pos hj] at hr
    by_cases hne : some current ≠ src[i + j]?
    · rw [if_pos hne] at hr
      cases hr
    · rw [if_neg hne] at hr
      intro k h1 h2
      by_cases hk : k = j
      · subst hk
        exact (not_not.mp hne).symm
      · exact ih (j + 1) (rl + 1) (by omega) hr k (by omega) h2

/-! ## The scan of `pack` on the rest of the input -/

/-- The scan of `pack` from index `i` on depends only on the part of the input
from `i` on, and only appends to `dest`. -/
theorem packLoop_shift (src : List Int) (max : Nat) :
    ∀ (n i : Nat) (pre dest literals : List Int), max - i = n →
      packLoop (pre ++ src) (pre.length + max) (pre.length + i) dest literals
        = dest ++ packLoop src max i [] literals := by
  intro n
  induction n using Nat.strong_induction_on with
  | _ n ih =>
    intro i pre dest lits h
    by_cases hi : i < max
    · have hi2 : pre.length + i < pre.length + max := by omega
      have hL : ∀ (k : Nat) (d l : List Int),
          packLoop (pre ++ src) (pre.length + max) (pre.length + (i + (k + 1))) d l
            = d ++ packLoop src max (i + (k + 1)) [] l := by
        intro k d l
        exact ih (max - (i + (k + 1))) (by omega) (i + (k + 1)) pre d l rfl
      have hR : ∀ (k : Nat) (d l : List Int),
          packLoop src max (i + (k + 1)) d l = d ++ packLoop src max (i + (k + 1)) [] l := by
        intro k d l
        have := ih (max - (i + (k + 1))) (by omega) (i + (k + 1)) [] d l rfl
        simpa using this
      have hmaxJ : (if pre.length + max ≤ pre.length + (i + MAX_LITERAL_LENGTH)
            then pre.length + max - (pre.length + i) - 1 else MAX_LITERAL_LENGTH)
          = (if max ≤ i + MAX_LITERAL_LENGTH then max - i - 1 else MAX_LITERAL_LENGTH) := by
        split_ifs <;> omega
      have hlt : (pre.length + (i + 1) < pre.length + max) = (i + 1 < max) := by
        apply propext
        omega
      conv_lhs => rw [packLoop]
      conv_rhs => rw [packLoop]
      simp only [if_pos hi, if_pos hi2, getElem?_append_shift, Nat.add_assoc, hmaxJ, hlt,
        runLoop_shift _ _ _ _ _ _ _ _ rfl, List.nil_append]
      generalize _toUInt8Elem src[i]? = cur
      generalize _toUInt8Elem src[i + 1]? = nxt
      generalize (if max ≤ i + MAX_LITERAL_LENGTH then max - i - 1 else MAX_LITERAL_LENGTH) = maxJ
      have h0 := hL 0
      have h0R := hR 0
      simp only [Nat.zero_add] at h0 h0R
      by_cases h1 : i + 1 < max
      · rw [if_pos h1, if_pos h1]
        by_cases h2 : cur = nxt
        · rw [if_pos h2, if_pos h2]
          cases runLoop src cur i maxJ 2 1 with
          | none =>
            simp only []
            rw [hL, hR _ (_literalToResult lits ++ _)]
            simp only [List.append_assoc]
          | some r =>
            obtain ⟨j, rl⟩ := r
            simp only []
            rw [hL, hR _ (_literalToResult lits ++ _)]
            simp only [List.append_assoc]
        · rw [if_neg h2, if_neg h2]
          by_cases h3 : (lits ++ [cur]).length = MAX_LITERAL_LENGTH
          · rw [if_pos h3, if_pos h3, h0, h0R (_literalToResult _), List.append_assoc]
          · rw [if_neg h3, if_neg h3, h0]
      · rw [if_neg h1, if_neg h1, h0, h0R (_literalToResult _), List.append_assoc]
    · conv_lhs => rw [packLoop]
      conv_rhs => rw [packLoop]
      rw [if_neg hi, if_neg (by omega)]
      simp

theorem packLoop_past (src : List Int) (max i : Nat) (dest literals : List Int)
    (hi : max ≤ i) : packLoop src max i dest literals = dest := by
  rw [packLoop, if_neg (by omega)]

theorem packFrom_nil (literals : List Int) : packFrom [] literals = [] := by
  rw [packFrom, packLoop_past _ _ _ _ _ (by simp)]

/-- The scan of `pack` resumed at index `i` is the scan of the rest of the
input. -/
theorem packLoop_drop (src : List Int) (i : Nat) (dest literals : List Int) :
    packLoop src src.length i dest literals = dest ++ packFrom (src.drop i) literals := by
  by_cases hi : i ≤ src.length
  · have h := packLoop_shift (src.drop i) (src.length - i) _ 0 (src.take i) dest literals rfl
    have hl : (src.take i).length = i := by simp [hi]
    rw [List.take_append_drop, hl] at h
    have e : i + (src.length - i) = src.length := by omega
    rw [e] at h
    rw [packFrom, List.length_drop]
    exact h
  · rw [packLoop_past _ _ _ _ _ (by omega), List.drop_eq_nil_of_le (by omega), packFrom_nil]
    simp

theorem pack_eq_packFrom (src : List Int) : pack src = packFrom src [] := by
  cases src with
  | nil =>
    rw [packFrom_nil, pack, if_pos (by simp)]
  | cons a t =>
    rw [pack, if_neg (by simp)]
    rfl

/-- The last byte of the input joins the pending literals, which are flushed. -/
theorem packFrom_single (a : Int) (literals : List Int) :
    packFrom [a] literals = _literalToResult (literals ++ [_toUInt8 a]) := by
  rw [packFrom, packLoop]
  simp only [List.length_singleton, Nat.lt_irrefl, if_false, if_true, Nat.zero_lt_one,
    Nat.zero_add, List.getElem?_cons_zero, toUInt8Elem_some, List.nil_append]
  rw [packLoop_past _ _ _ _ _ (by omega)]

/-- A byte that differs from its successor joins the pending literals, which
are flushed when they reach `MAX_LITERAL_LENGTH`. -/
theorem packFrom_ne (a b : Int) (rest literals : List Int) (h : _toUInt8 a ≠ _toUInt8 b) :
    packFrom (a :: b :: rest) literals =
      if (literals ++ [_toUInt8 a]).length = MAX_LITERAL_LENGTH then
        _literalToResult (literals ++ [_toUInt8 a]) ++ packFrom (b :: rest) []
      else packFrom (b :: rest) (literals ++ [_toUInt8 a]) := by
  conv_lhs => rw [packFrom, packLoop]
  have h1 : 0 < (a :: b :: rest).length := by simp
  have h2 : 0 + 1 < (a :: b :: rest).length := by simp
  rw [if_pos h1, if_pos h2]
  simp only [Nat.zero_add, List.getElem?_cons_zero, List.getElem?_cons_succ,
    toUInt8Elem_some, if_neg h, List.nil_append, packLoop_drop, List.drop_succ_cons,
    List.drop_zero]

/-- Two equal bytes start a run: the pending literals are flushed, the repeat
chunk is emitted and the scan resumes after the bytes it covers. -/
theorem packFrom_eq (a b : Int) (rest literals : List Int) (h : _toUInt8 a = _toUInt8 b) :
    packFrom (a :: b :: rest) literals =
      _literalToResult literals ++ [(runChunk (a :: b :: rest)).2, _toUInt8 a]
        ++ packFrom ((a :: b :: rest).drop (runChunk (a :: b :: rest)).1) [] := by
  conv_lhs => rw [packFrom, packLoop]
  have h1 : 0 < (a :: b :: rest).length := by simp
  have h2 : 0 + 1 < (a :: b :: rest).length := by simp
  rw [if_pos h1, if_pos h2]
  simp only [Nat.zero_add, List.getElem?_cons_zero, List.getElem?_cons_succ,
    toUInt8Elem_some, if_pos h, List.nil_append, runChunk]
  cases runLoop (a :: b :: rest) (_toUInt8 a) 0
    (if (a :: b :: rest).length ≤ MAX_LITERAL_LENGTH then (a :: b :: rest).length - 0 - 1
      else MAX_LITERAL_LENGTH) 2 1 with
  | none => simp only [packLoop_drop]
  | some r => simp only [packLoop_drop]

/-- The repeat chunk emitted at two equal bytes: it covers between 2 and 128
bytes of the input, its control byte is `257` minus that number, the covered
positions from the third on hold the current byte, and the run stops short of
128 bytes only at a byte that differs or at the end of the input. -/
theorem runChunk_spec (L : List Int) (hlen : 2 ≤ L.length) :
    2 ≤ (runChunk L).1 ∧ (runChunk L).1 ≤ 128 ∧ (runChunk L).1 ≤ L.length
      ∧ (runChunk L).2 = 257 - ((runChunk L).1 : Int)
      ∧ (∀ k, 2 ≤ k → k < (runChunk L).1 → L[k]? = some (_toUInt8Elem L[0]?))
      ∧ ((runChunk L).1 < 128 → (runChunk L).1 < L.length →
          L[(runChunk L).1]? ≠ some (_toUInt8Elem L[0]?)) := by
  unfold runChunk
  simp only [Nat.zero_add, Nat.sub_zero]
  generalize hm : (if L.length ≤ MAX_LITERAL_LENGTH then L.length - 1
    else MAX_LITERAL_LENGTH) = maxJ
  have hb : 1 ≤ maxJ ∧ maxJ ≤ 127 ∧ maxJ + 1 ≤ L.length ∧ (maxJ < 127 → maxJ + 1 = L.length) := by
    rw [← hm]
    unfold MAX_LITERAL_LENGTH
    split_ifs <;> omega
  cases hr : runLoop L (_toUInt8Elem L[0]?) 0 maxJ 2 1 with
  | none =>
    have hn := runLoop_none L _ 0 maxJ _ 2 1 rfl hr
    simp only [Nat.zero_add] at hn
    dsimp only
    refine ⟨by omega, by omega, by omega, ?_, ?_, ?_⟩
    · show _toUInt8 (0 - (maxJ : Int)) = 257 - ((maxJ + 1 : Nat) : Int)
      unfold _toUInt8
      omega
    · intro k h1 h2
      exact hn k h1 (by omega)
    · intro h1 h2
      omega
  | some r =>
    obtain ⟨j, rl⟩ := r
    obtain ⟨h1, h2, h3, h4, h5⟩ := runLoop_some L _ 0 maxJ _ 2 1 j rl rfl hr
    simp only [Nat.zero_add] at h4 h5
    have e : j - 1 + 1 = j := by omega
    dsimp only
    simp only [e]
    refine ⟨h1, by omega, by omega, ?_, h4, fun _ _ => h5⟩
    show _toUInt8 (0 - (rl : Int)) = 257 - (j : Int)
    unfold _toUInt8
    omega

/-! ## Chunks -/

theorem encodeChunks_nil : encodeChunks [] = [] := rfl

theorem encodeChunks_cons (c : Chunk) (cs : List Chunk) :
    encodeChunks (c :: cs) = c.encode ++ encodeChunks cs := rfl

theorem encodeChunks_append (cs ds : List Chunk) :
    encodeChunks (cs ++ ds) = encodeChunks cs ++ encodeChunks ds := by
  simp [encodeChunks]

theorem decodeChunks_nil : decodeChunks [] = [] := rfl

theorem decodeChunks_cons (c : Chunk) (cs : List Chunk) :
    decodeChunks (c :: cs) = c.decode ++ decodeChunks cs := rfl

theorem decodeChunks_append (cs ds : List Chunk) :
    decodeChunks (cs ++ ds) = decodeChunks cs ++ decodeChunks ds := by
  simp [decodeChunks]

/-- Flushing at most 256 pending literals emits one literal chunk. -/
theorem literalToResult_cons (d : List Int) (h0 : d ≠ []) (h1 : d.length ≤ 256) :
    _literalToResult d = (Chunk.literal d).encode := by
  have hl : d.length ≠ 0 := fun e => h0 (List.length_eq_zero.mp e)
  rw [_literalToResult, if_neg hl, Chunk.encode, toUInt8_of_byte _ (by omega) (by omega)]

theorem literalToResult_nil : _literalToResult [] = [] := rfl

/-- The input bytes covered by a repeat chunk are copies of the current byte. -/
theorem runChunk_take (a b : Int) (rest : List Int) (h : _toUInt8 a = _toUInt8 b) :
    ((a :: b :: rest).take (runChunk (a :: b :: rest)).1).map _toUInt8
      = List.replicate (runChunk (a :: b :: rest)).1 (_toUInt8 a) := by
  obtain ⟨h1, h2, h3, _, h5, _⟩ := runChunk_spec (a :: b :: rest) (by simp)
  generalize (runChunk (a :: b :: rest)).1 = n at *
  apply List.ext_getElem
  · simp only [List.length_map, List.length_take, List.length_replicate]
    omega
  · intro k hk1 hk2
    simp only [List.length_replicate] at hk2
    simp only [List.getElem_map, List.getElem_take, List.getElem_replicate]
    match k, hk2 with
    | 0, _ => rfl
    | 1, _ => exact h.symm
    | k + 2, hk2 =>
      have e := h5 (k + 2) (by omega) hk2
      rw [List.getElem?_eq_getElem (by omega)] at e
      simp only [List.getElem?_cons_zero, toUInt8Elem_some, Option.some.injEq] at e
      rw [e, toUInt8_idem]

theorem packed_literal (d : List Int) (h0 : d ≠ []) (h1 : d.length ≤ 127)
    (hb : ∀ b ∈ d, 0 ≤ b ∧ b ≤ 255) : (Chunk.literal d).Packed := by
  have hl : d.length ≠ 0 := fun e => h0 (List.length_eq_zero.mp e)
  refine ⟨⟨by omega, by omega, hb⟩, ?_⟩
  intro bytes e
  cases e
  exact h1

theorem packed_run (n : Nat) (v : Int) (h0 : 2 ≤ n) (h1 : n ≤ 128) (hv : 0 ≤ v ∧ v ≤ 255) :
    (Chunk.run n v).Packed := by
  refine ⟨⟨h0, h1, hv.1, hv.2⟩, ?_⟩
  intro bytes e
  cases e

/-- Flushing the pending literals emits the chunks (none or one) that decode
to them. -/
theorem flush_chunks (lits : List Int) (hb : ∀ b ∈ lits, 0 ≤ b ∧ b ≤ 255)
    (hl : lits.length ≤ 127) :
    ∃ cs : List Chunk, _literalToResult lits = encodeChunks cs ∧ decodeChunks cs = lits
      ∧ ∀ c ∈ cs, c.Packed := by
  by_cases h : lits = []
  · subst h
    exact ⟨[], rfl, rfl, fun c hc => by cases hc⟩
  · refine ⟨[Chunk.literal lits], ?_, ?_, ?_⟩
    · rw [literalToResult_cons lits h (by omega), encodeChunks_cons, encodeChunks_nil,
        List.append_nil]
    · rw [decodeChunks_cons, decodeChunks_nil, List.append_nil, Chunk.decode]
    · intro c hc
      rw [List.mem_singleton] at hc
      subst hc
      exact packed_literal lits h hl hb

theorem bytes_snoc (lits : List Int) (a : Int) (hb : ∀ b ∈ lits, 0 ≤ b ∧ b ≤ 255) :
    ∀ b ∈ lits ++ [_toUInt8 a], 0 ≤ b ∧ b ≤ 255 := by
  intro b hbm
  rw [List.mem_append, List.mem_singleton] at hbm
  rcases hbm with hbm | hbm
  · exact hb b hbm
  · rw [hbm]
    exact toUInt8_range a

/-- The output of the scan of `pack` is a sequence of chunks, as `pack` emits
them, that decode to the pending literals followed by the masked input. -/
theorem packFrom_chunks :
    ∀ (n : Nat) (L lits : List Int), L.length = n →
      (∀ b ∈ lits, 0 ≤ b ∧ b ≤ 255) → lits.length ≤ 126 → (L = [] → lits = []) →
      ∃ cs : List Chunk, packFrom L lits = encodeChunks cs
        ∧ decodeChunks cs = lits ++ L.map _toUInt8
        ∧ ∀ c ∈ cs, c.Packed := by
  intro n
  induction n using Nat.strong_induction_on with
  | _ n ih =>
    intro L lits hn hb hl he
    match L, hn, he with
    | [], _, he =>
      refine ⟨[], ?_, ?_, fun c hc => by cases hc⟩
      · rw [packFrom_nil, encodeChunks_nil]
      · rw [he rfl]
        rfl
    | [a], _, _ =>
      obtain ⟨cs, h1, h2, h3⟩ := flush_chunks (lits ++ [_toUInt8 a]) (bytes_snoc lits a hb)
        (by rw [List.length_append, List.length_singleton]; omega)
      refine ⟨cs, ?_, ?_, h3⟩
      · rw [packFrom_single, h1]
      · rw [h2]
        rfl
    | a :: b :: rest, hn, _ =>
      by_cases h : _toUInt8 a = _toUInt8 b
      · obtain ⟨r1, r2, r3, r4, _, _⟩ := runChunk_spec (a :: b :: rest) (by simp)
        have htake := runChunk_take a b rest h
        obtain ⟨cs1, f1, f2, f3⟩ := flush_chunks lits hb (by omega)
        obtain ⟨cs2, g1, g2, g3⟩ := ih ((a :: b :: rest).drop (runChunk (a :: b :: rest)).1).length
          (by rw [List.length_drop]; omega) _ [] rfl (fun b hb => by cases hb) (by simp)
          (fun _ => rfl)
        refine ⟨cs1 ++ [Chunk.run (runChunk (a :: b :: rest)).1 (_toUInt8 a)] ++ cs2, ?_, ?_, ?_⟩
        · rw [packFrom_eq a b rest lits h, f1, g1, encodeChunks_append, encodeChunks_append,
            encodeChunks_cons, encodeChunks_nil, List.append_nil, r4, Chunk.encode]
          congr 3
          omega
        · rw [decodeChunks_append, decodeChunks_append, f2, g2, decodeChunks_cons,
            decodeChunks_nil, List.append_nil, Chunk.decode, List.nil_append, ← htake,
            List.append_assoc, ← List.map_append, List.take_append_drop]
        · intro c hc
          rw [List.mem_append, List.mem_append, List.mem_singleton] at hc
          rcases hc with (hc | hc) | hc
          · exact f3 c hc
          · rw [hc]
            exact packed_run _ _ r1 r2 (toUInt8_range a)
          · exact g3 c hc
      · rw [packFrom_ne a b rest lits h]
        by_cases hfull : (lits ++ [_toUInt8 a]).length = MAX_LITERAL_LENGTH
        · rw [if_pos hfull]
          have hlen : (lits ++ [_toUInt8 a]).length ≤ 127 := by
            rw [hfull]
            exact Nat.le_refl _
          obtain ⟨cs1, f1, f2, f3⟩ := flush_chunks _ (bytes_snoc lits a hb) hlen
          obtain ⟨cs2, g1, g2, g3⟩ := ih (b :: rest).length (by rw [← hn]; simp) (b :: rest) []
            rfl (fun b hb => by cases hb) (by simp) (fun _ => rfl)
          refine ⟨cs1 ++ cs2, ?_, ?_, ?_⟩
          · rw [f1, g1, encodeChunks_append]
          · rw [decodeChunks_append, f2, g2]
            simp
          · intro c hc
            rw [List.mem_append] at hc
            rcases hc with hc | hc
            · exact f3 c hc
            · exact g3 c hc
        · rw [if_neg hfull]
          have hlen : (lits ++ [_toUInt8 a]).length ≤ 126 := by
            rw [List.length_append, List.length_singleton] at hfull ⊢
            unfold MAX_LITERAL_LENGTH at hfull
            omega
          obtain ⟨cs2, g1, g2, g3⟩ := ih (b :: rest).length (by rw [← hn]; simp) (b :: rest)
            (lits ++ [_toUInt8 a]) rfl (bytes_snoc lits a hb) hlen (fun e => by cases e)
          refine ⟨cs2, g1, ?_, g3⟩
          rw [g2]
          simp

/-- Complete chunks in front of the input decode to their content. -/
theorem unpack_encodeChunks (cs : List Chunk) (rest : List Int)
    (h : ∀ c ∈ cs, c.WellFormed) :
    unpack (encodeChunks cs ++ rest) = decodeChunks cs ++ unpack rest := by
  induction cs with
  | nil => rfl
  | cons c cs ih =>
    have hc := h c (by simp)
    have ih1 := ih (fun c1 h1 => h c1 (by simp [h1]))
    rw [encodeChunks_cons, decodeChunks_cons, List.append_assoc, List.append_assoc, ← ih1]
    cases c with
    | literal d =>
      obtain ⟨h1, h2, h3⟩ := hc
      rw [Chunk.encode, Chunk.decode, List.append_assoc, List.singleton_append,
        unpack_literal _ d _ (by omega) (by omega) (by omega), map_toUInt8_of_bytes d h3]
    | run n v =>
      obtain ⟨h1, h2, h3, h4⟩ := hc
      have e : (257 - (256 - ((n : Int) - 1))).toNat = n := by omega
      rw [Chunk.encode, Chunk.decode, List.cons_append, List.cons_append, List.nil_append,
        unpack_repeat _ v _ (by omega) (by omega), e, toUInt8_of_byte v h3 h4]

/-- A literal run cut off by the end of the input: the missing bytes are read
as `undefined` and pushed as `0`. -/
theorem unpack_truncated_literal (c : Int) (d : List Int) (h0 : 0 ≤ c) (h1 : c ≤ 127)
    (hd : (d.length : Int) < c + 1) :
    unpack (c :: d) = d.map _toUInt8 ++ List.replicate ((c + 1).toNat - d.length) 0 := by
  have hc : _toInt8 (_toUInt8 c) = c := by
    rw [toUInt8_of_byte c h0 (by omega), toInt8_of_small c h0 h1]
  rw [unpack_cons, hc, if_neg (by omega), if_pos h0, List.drop_eq_nil_of_le (by omega),
    unpack_nil, List.append_nil]
  have hn : d.length < (c + 1).toNat := by omega
  generalize (c + 1).toNat = n at hn
  apply List.ext_getElem?
  intro k
  by_cases hk : k < n
  · rw [List.getElem?_map, List.getElem?_range hk, Option.map_some']
    by_cases hk2 : k < d.length
    · rw [List.getElem?_append_left (by simpa using hk2), List.getElem?_map,
        List.getElem?_eq_getElem hk2, Option.map_some', toUInt8Elem_some]
    · rw [List.getElem?_append_right (by simpa using hk2), List.getElem?_replicate,
        if_pos (by simp only [List.length_map]; omega),
        List.getElem?_eq_none (by omega), toUInt8Elem_none]
  · rw [List.getElem?_eq_none (by simp only [List.length_map, List.length_range]; omega),
      List.getElem?_eq_none (by
        simp only [List.length_append, List.length_map, List.length_replicate]; omega)]

/-- A repeat run whose data byte is cut off by the end of the input: the
missing byte is read as `undefined` and pushed as `0`. -/
theorem unpack_truncated_repeat (c : Int) (h0 : 129 ≤ c) (h1 : c ≤ 255) :
    unpack [c] = List.replicate (257 - c).toNat 0 := by
  have hc : _toInt8 (_toUInt8 c) = c - 256 := by
    rw [toUInt8_of_byte c (by omega) h1, toInt8_of_large c (by omega) h1]
  have hn : (|c - 256| + 1).toNat = (257 - c).toNat := by
    rw [abs_of_neg (by omega)]
    congr 1
    omega
  rw [unpack_cons, hc, if_neg (by omega), if_neg (by omega), hn]
  simp [toUInt8Elem_none, unpack_nil]

/-! ## Runs of one value -/

/-- On `n ≥ 2` copies of a byte the repeat chunk covers `min n 128` bytes. -/
theorem runChunk_replicate (v : Int) (n : Nat) (hv0 : 0 ≤ v) (hv1 : v ≤ 255) (hn : 2 ≤ n) :
    (runChunk (List.replicate n v)).1 = min n 128
      ∧ (runChunk (List.replicate n v)).2 = 257 - ((min n 128 : Nat) : Int) := by
  obtain ⟨h1, h2, h3, h4, _, h6⟩ := runChunk_spec (List.replicate n v) (by simpa using hn)
  rw [List.length_replicate] at h3 h6
  have hm : (runChunk (List.replicate n v)).1 = min n 128 := by
    by_contra hne
    have hlt1 : (runChunk (List.replicate n v)).1 < 128 := by omega
    have hlt2 : (runChunk (List.replicate n v)).1 < n := by omega
    apply h6 hlt1 hlt2
    rw [List.getElem?_replicate, if_pos hlt2, List.getElem?_replicate, if_pos (by omega),
      toUInt8Elem_some, toUInt8_of_byte v hv0 hv1]
  exact ⟨hm, by rw [h4, hm]⟩

/-- The scan of `n ≥ 2` copies of a byte emits one repeat chunk of
`min n 128` copies and resumes on the remaining copies. -/
theorem packFrom_replicate (v : Int) (n : Nat) (hv0 : 0 ≤ v) (hv1 : v ≤ 255) (hn : 2 ≤ n) :
    packFrom (List.replicate n v) []
      = [257 - ((min n 128 : Nat) : Int), v] ++ packFrom (List.replicate (n - min n 128) v) [] := by
  obtain ⟨h1, h2⟩ := runChunk_replicate v n hv0 hv1 hn
  obtain ⟨m, rfl⟩ : ∃ m, n = m + 2 := ⟨n - 2, by omega⟩
  have e : List.replicate (m + 2) v = v :: v :: List.replicate m v := rfl
  have h := packFrom_eq v v (List.replicate m v) [] rfl
  rw [← e, h1, h2, List.drop_replicate, literalToResult_nil, List.nil_append,
    toUInt8_of_byte v hv0 hv1] at h
  exact h

/-- The output of `pack` on `128 * q + r` copies of a byte, `r < 128`. -/
theorem packFrom_replicate_all (v : Int) (hv0 : 0 ≤ v) (hv1 : v ≤ 255) (r : Nat)
    (hr : r < 128) :
    ∀ q : Nat, packFrom (List.replicate (128 * q + r) v) []
      = (List.replicate q [129, v]).flatten
        ++ (if r = 0 then [] else if r = 1 then [0, v] else [257 - (r : Int), v]) := by
  intro q
  induction q with
  | zero =>
    rw [Nat.mul_zero, Nat.zero_add, List.replicate_zero, List.flatten_nil, List.nil_append]
    by_cases h0 : r = 0
    · subst h0
      rw [if_pos rfl, List.replicate_zero, packFrom_nil]
    · rw [if_neg h0]
      by_cases h1 : r = 1
      · subst h1
        rw [if_pos rfl]
        show packFrom [v] [] = [0, v]
        rw [packFrom_single, List.nil_append, toUInt8_of_byte v hv0 hv1]
        rfl
      · rw [if_neg h1, packFrom_replicate v r hv0 hv1 (by omega)]
        have e : min r 128 = r := by omega
        rw [e, Nat.sub_self, List.replicate_zero, packFrom_nil, List.append_nil]
  | succ q ih =>
    rw [packFrom_replicate v _ hv0 hv1 (by omega)]
    have e : min (128 * (q + 1) + r) 128 = 128 := by omega
    have e2 : 128 * (q + 1) + r - 128 = 128 * q + r := by omega
    rw [e, e2, ih, List.replicate_succ, List.flatten_cons]
    rfl

/-! ## Sequences without repeats -/

theorem literalBlocks_nil : literalBlocks [] = [] := by
  rw [literalBlocks, if_pos rfl]

/-- A non-empty sequence of at most 127 bytes is one block. -/
theorem literalBlocks_short (x : List Int) (h0 : x ≠ []) (h1 : x.length ≤ 127) :
    literalBlocks x = [x] := by
  rw [literalBlocks, if_neg h0, List.take_of_length_le (by simpa [MAX_LITERAL_LENGTH] using h1),
    List.drop_eq_nil_of_le (by simpa [MAX_LITERAL_LENGTH] using h1), literalBlocks_nil]

/-- A sequence that starts with 127 bytes `p` has `p` as its first block. -/
theorem literalBlocks_append (p y : List Int) (hp : p.length = 127) :
    literalBlocks (p ++ y) = p :: literalBlocks y := by
  have hne : p ++ y ≠ [] := by
    intro e
    have := congrArg List.length e
    simp only [List.length_append, List.length_nil] at this
    omega
  rw [literalBlocks, if_neg hne, List.take_left' (by simpa [MAX_LITERAL_LENGTH] using hp),
    List.drop_left' (by simpa [MAX_LITERAL_LENGTH] using hp)]

theorem literalToResult_snoc (lits : List Int) (a : Int) (h : lits.length ≤ 126) :
    _literalToResult (lits ++ [a]) = [((lits ++ [a]).length : Int) - 1] ++ (lits ++ [a]) := by
  rw [literalToResult_cons _ (by simp) (by simp; omega)]
  rfl

/-- The scan of `pack` on bytes of which no two adjacent ones are equal emits
the pending literals and the input in blocks of 127 bytes. -/
theorem packFrom_no_repeats (L : List Int) :
    ∀ (lits : List Int), (∀ b ∈ L, 0 ≤ b ∧ b ≤ 255) → L ≠ [] → List.Chain' (· ≠ ·) L →
      lits.length ≤ 126 →
      packFrom L lits = encodeBlocks (literalBlocks (lits ++ L)) := by
  induction L with
  | nil =>
    intro lits _ hne
    exact absurd rfl hne
  | cons a t ih =>
    intro lits hb _ hch hl
    have ha := hb a (by simp)
    cases t with
    | nil =>
      rw [packFrom_single, toUInt8_of_byte a ha.1 ha.2, literalToResult_snoc lits a hl,
        literalBlocks_short _ (by simp) (by simp; omega)]
      simp [encodeBlocks]
    | cons b rest =>
      have hb2 := hb b (by simp)
      rw [List.chain'_cons] at hch
      have hne : _toUInt8 a ≠ _toUInt8 b := by
        rw [toUInt8_of_byte a ha.1 ha.2, toUInt8_of_byte b hb2.1 hb2.2]
        exact hch.1
      have hbt : ∀ c ∈ b :: rest, 0 ≤ c ∧ c ≤ 255 := fun c hc => hb c (List.mem_cons_of_mem a hc)
      have hsplit : lits ++ a :: b :: rest = (lits ++ [a]) ++ (b :: rest) := by simp
      rw [packFrom_ne a b rest lits hne, toUInt8_of_byte a ha.1 ha.2, hsplit]
      by_cases hfull : (lits ++ [a]).length = MAX_LITERAL_LENGTH
      · rw [if_pos hfull, ih [] hbt (by simp) hch.2 (by simp), literalToResult_snoc lits a hl,
          literalBlocks_append _ _ hfull, List.nil_append]
        simp [encodeBlocks]
      · rw [if_neg hfull]
        have hlen : (lits ++ [a]).length ≤ 126 := by
          rw [List.length_append, List.length_singleton] at hfull ⊢
          unfold MAX_LITERAL_LENGTH at hfull
          omega
        exact ih (lits ++ [a]) hbt (by simp) hch.2 hlen

/-! ## A run between two literals -/

/-- On `2 ≤ n ≤ 128` copies of a byte `v` followed by another byte, the repeat
chunk covers exactly the `n` copies. -/
theorem runChunk_run_then (v b : Int) (n : Nat) (hv0 : 0 ≤ v) (hv1 : v ≤ 255)
    (hvb : v ≠ b) (h2 : 2 ≤ n) (h128 : n ≤ 128) :
    (runChunk (List.replicate n v ++ [b])).1 = n
      ∧ (runChunk (List.replicate n v ++ [b])).2 = 257 - (n : Int) := by
  have hlen : (List.replicate n v ++ [b]).length = n + 1 := by simp
  obtain ⟨r1, r2, r3, r4, r5, r6⟩ := runChunk_spec (List.replicate n v ++ [b]) (by omega)
  have hin : ∀ k, k < n → (List.replicate n v ++ [b])[k]? = some v := by
    intro k hk
    rw [List.getElem?_append_left (by simpa using hk), List.getElem?_replicate, if_pos hk]
  have hat : (List.replicate n v ++ [b])[n]? = some b := by
    rw [List.getElem?_append_right (by simp)]
    simp
  have h0 : _toUInt8Elem (List.replicate n v ++ [b])[0]? = v := by
    rw [hin 0 (by omega), toUInt8Elem_some, toUInt8_of_byte v hv0 hv1]
  rw [h0, hlen] at r6
  rw [h0] at r5
  have hm : (runChunk (List.replicate n v ++ [b])).1 = n := by
    rcases Nat.lt_trichotomy (runChunk (List.replicate n v ++ [b])).1 n with hlt | heq | hgt
    · exact absurd (hin _ hlt) (r6 (by omega) (by omega))
    · exact heq
    · have e := r5 n h2 hgt
      rw [hat] at e
      exact absurd (Option.some.inj e).symm hvb
  exact ⟨hm, by rw [r4, hm]⟩

/-! ## The scan of `pack` at the level of chunks -/

theorem encode_ne_nil (c : Chunk) : c.encode ≠ [] := by
  cases c <;> simp [Chunk.encode]

/-- An encoded sequence has one reading only as a list of complete chunks. -/
theorem encodeChunks_injective :
    ∀ (cs ds : List Chunk), (∀ c ∈ cs, c.WellFormed) → (∀ c ∈ ds, c.WellFormed) →
      encodeChunks cs = encodeChunks ds → cs = ds := by
  intro cs
  induction cs with
  | nil =>
    intro ds _ _ h
    cases ds with
    | nil => rfl
    | cons d t =>
      rw [encodeChunks_nil, encodeChunks_cons] at h
      exact absurd (List.append_eq_nil.mp h.symm).1 (encode_ne_nil d)
  | cons c cs ih =>
    intro ds hc hd h
    cases ds with
    | nil =>
      rw [encodeChunks_nil, encodeChunks_cons] at h
      exact absurd (List.append_eq_nil.mp h).1 (encode_ne_nil c)
    | cons d t =>
      have hcw := hc c (by simp)
      have hdw := hd d (by simp)
      have hrest : ∀ k ∈ cs, k.WellFormed := fun k hk => hc k (by simp [hk])
      have hrest2 : ∀ k ∈ t, k.WellFormed := fun k hk => hd k (by simp [hk])
      rw [encodeChunks_cons, encodeChunks_cons] at h
      cases c with
      | literal a =>
        cases d with
        | literal b =>
          simp only [Chunk.encode, List.singleton_append, List.cons_append, List.cons.injEq] at h
          obtain ⟨h1, h2⟩ := h
          have hl : a.length = b.length := by omega
          simp only [List.nil_append] at h2
          obtain ⟨e1, e2⟩ := List.append_inj h2 hl
          rw [e1, ih t hrest hrest2 e2]
        | run n v =>
          obtain ⟨a1, a2, _⟩ := hcw
          obtain ⟨b1, b2, _⟩ := hdw
          simp only [Chunk.encode, List.singleton_append, List.cons_append, List.cons.injEq] at h
          omega
      | run n v =>
        cases d with
        | literal b =>
          obtain ⟨a1, a2, _⟩ := hcw
          obtain ⟨b1, b2, _⟩ := hdw
          simp only [Chunk.encode, List.singleton_append, List.cons_append, List.cons.injEq] at h
          omega
        | run m w =>
          simp only [Chunk.encode, List.cons_append, List.nil_append, List.cons.injEq] at h
          obtain ⟨h1, h2, h3⟩ := h
          have hn : n = m := by omega
          rw [hn, h2, ih t hrest hrest2 h3]

theorem literalToResult_flush (lits : List Int) (h : lits.length ≤ 256) :
    _literalToResult lits = encodeChunks (flushChunks lits) := by
  unfold flushChunks
  by_cases hl : lits = []
  · subst hl
    rfl
  · rw [if_neg hl, literalToResult_cons lits hl h, encodeChunks_cons, encodeChunks_nil,
      List.append_nil]

/-- The scan of `pack` emits some list of chunks. -/
theorem packScan_exists :
    ∀ (n : Nat) (L lits : List Int), L.length = n → (L = [] → lits = []) →
      ∃ cs : List Chunk, PackScan L lits cs := by
  intro n
  induction n using Nat.strong_induction_on with
  | _ n ih =>
    intro L lits hn he
    match L, hn, he with
    | [], _, he =>
      rw [he rfl]
      exact ⟨[], PackScan.done⟩
    | [a], _, _ => exact ⟨_, PackScan.last a lits⟩
    | a :: b :: rest, hn, _ =>
      by_cases h : _toUInt8 a = _toUInt8 b
      · obtain ⟨_, _, r3, _⟩ := runChunk_spec (a :: b :: rest) (by simp)
        obtain ⟨cs, hcs⟩ := ih ((a :: b :: rest).drop (runChunk (a :: b :: rest)).1).length
          (by rw [List.length_drop]; omega) _ [] rfl (fun _ => rfl)
        exact ⟨_, PackScan.run a b rest lits cs h hcs⟩
      · by_cases hfull : (lits ++ [_toUInt8 a]).length = MAX_LITERAL_LENGTH
        · obtain ⟨cs, hcs⟩ := ih (b :: rest).length (by rw [← hn]; simp) (b :: rest) [] rfl
            (fun _ => rfl)
          exact ⟨_, PackScan.full a b rest lits cs h hfull hcs⟩
        · obtain ⟨cs, hcs⟩ := ih (b :: rest).length (by rw [← hn]; simp) (b :: rest)
            (lits ++ [_toUInt8 a]) rfl (fun e => by cases e)
          exact ⟨_, PackScan.push a b rest lits cs h hfull hcs⟩

/-- The chunks of the scan are the output of the loop of `pack`. -/
theorem packScan_sound (L lits : List Int) (cs : List Chunk) (h : PackScan L lits cs) :
    lits.length ≤ 126 → packFrom L lits = encodeChunks cs := by
  induction h with
  | done =>
    intro _
    rw [packFrom_nil, encodeChunks_nil]
  | last a lits =>
    intro hl
    rw [packFrom_single, literalToResult_cons _ (by simp) (by simp; omega),
      encodeChunks_cons, encodeChunks_nil, List.append_nil]
  | full a b rest lits cs hne hfull _ ih =>
    intro hl
    rw [packFrom_ne a b rest lits hne, if_pos hfull, ih (by simp),
      literalToResult_cons _ (by simp) (by simp; omega), encodeChunks_cons]
  | push a b rest lits cs hne hfull _ ih =>
    intro hl
    have hlen : (lits ++ [_toUInt8 a]).length ≤ 126 := by
      rw [List.length_append, List.length_singleton] at hfull ⊢
      unfold MAX_LITERAL_LENGTH at hfull
      omega
    rw [packFrom_ne a b rest lits hne, if_neg hfull, ih hlen]
  | run a b rest lits cs heq _ ih =>
    intro hl
    obtain ⟨_, _, _, r4, _, _⟩ := runChunk_spec (a :: b :: rest) (by simp)
    rw [packFrom_eq a b rest lits heq, ih (by simp), literalToResult_flush lits (by omega),
      encodeChunks_append, encodeChunks_cons, r4, Chunk.encode, List.append_assoc]
    congr 3
    omega

/-- The chunks of the scan are chunks as `pack` emits them. -/
theorem packScan_packed (L lits : List Int) (cs : List Chunk) (h : PackScan L lits cs) :
    lits.length ≤ 126 → (∀ b ∈ lits, 0 ≤ b ∧ b ≤ 255) → ∀ c ∈ cs, c.Packed := by
  induction h with
  | done =>
    intro _ _ c hc
    cases hc
  | last a lits =>
    intro hl hb c hc
    rw [List.mem_singleton] at hc
    rw [hc]
    exact packed_literal _ (by simp) (by simp; omega) (bytes_snoc lits a hb)
  | full a b rest lits cs hne hfull _ ih =>
    intro hl hb c hc
    rw [List.mem_cons] at hc
    rcases hc with hc | hc
    · rw [hc]
      exact packed_literal _ (by simp) (by simp; omega) (bytes_snoc lits a hb)
    · exact ih (by simp) (fun b hb => by cases hb) c hc
  | push a b rest lits cs hne hfull _ ih =>
    intro hl hb c hc
    have hlen : (lits ++ [_toUInt8 a]).length ≤ 126 := by
      rw [List.length_append, List.length_singleton] at hfull ⊢
      unfold MAX_LITERAL_LENGTH at hfull
      omega
    exact ih hlen (bytes_snoc lits a hb) c hc
  | run a b rest lits cs heq _ ih =>
    intro hl hb c hc
    obtain ⟨r1, r2, _, _, _, _⟩ := runChunk_spec (a :: b :: rest) (by simp)
    rw [List.mem_append, List.mem_cons] at hc
    rcases hc with hc | hc | hc
    · unfold flushChunks at hc
      by_cases hn : lits = []
      · rw [if_pos hn] at hc
        cases hc
      · rw [if_neg hn, List.mem_singleton] at hc
        rw [hc]
        exact packed_literal lits hn (by omega) hb
    · rw [hc]
      exact packed_run _ _ r1 r2 (toUInt8_range a)
    · exact ih (by simp) (fun b hb => by cases hb) c hc

/-- Any reading of the output of `pack` as complete chunks is the list of
chunks of the scan. -/
theorem pack_scan (x : List Int) (cs : List Chunk) (hcs : ∀ c ∈ cs, c.WellFormed)
    (h : pack x = encodeChunks cs) : PackScan x [] cs := by
  obtain ⟨ds, hds⟩ := packScan_exists x.length x [] rfl (fun _ => rfl)
  have h1 := packScan_sound x [] ds hds (by simp)
  have h2 := packScan_packed x [] ds hds (by simp) (fun b hb => by cases hb)
  rw [← pack_eq_packFrom, h] at h1
  rw [encodeChunks_injective cs ds hcs (fun c hc => (h2 c hc).1) h1]
  exact hds

/-- In the chunks of the scan no literal chunk holds two adjacent equal
bytes, when this holds of the pending literals followed by the next byte. -/
theorem packScan_literal_chain (L lits : List Int) (cs : List Chunk)
    (h : PackScan L lits cs) :
    (∀ a, L.head? = some a → List.Chain' (· ≠ ·) (lits ++ [_toUInt8 a])) →
      ∀ d, Chunk.literal d ∈ cs → List.Chain' (· ≠ ·) d := by
  induction h with
  | done =>
    intro _ d hd
    cases hd
  | last a lits =>
    intro hinv d hd
    rw [List.mem_singleton] at hd
    cases hd
    exact hinv a rfl
  | full a b rest lits cs hne hfull _ ih =>
    intro hinv d hd
    rw [List.mem_cons] at hd
    rcases hd with hd | hd
    · cases hd
      exact hinv a rfl
    · exact ih (fun c _ => by simp) d hd
  | push a b rest lits cs hne hfull _ ih =>
    intro hinv d hd
    refine ih ?_ d hd
    intro c hc
    cases hc
    rw [List.chain'_append]
    refine ⟨hinv a rfl, by simp, ?_⟩
    intro x hx y hy
    rw [List.getLast?_concat] at hx
    cases hx
    cases hy
    exact hne
  | run a b rest lits cs heq _ ih =>
    intro hinv d hd
    rw [List.mem_append, List.mem_cons] at hd
    rcases hd with hd | hd | hd
    · unfold flushChunks at hd
      by_cases hn : lits = []
      · rw [if_pos hn] at hd
        cases hd
      · rw [if_neg hn, List.mem_singleton] at hd
        cases hd
        exact (List.chain'_append.mp (hinv a rfl)).1
    · cases hd
    · exact ih (fun c _ => by simp) d hd

/-- Where a chunk sits in a list of chunks that starts with `c`. -/
theorem cons_eq_append_run (c r : Chunk) (cs cs1 cs2 : List Chunk)
    (h : c :: cs = cs1 ++ r :: cs2) :
    (cs1 = [] ∧ c = r ∧ cs = cs2) ∨ ∃ t, cs1 = c :: t ∧ cs = t ++ r :: cs2 := by
  cases cs1 with
  | nil =>
    rw [List.nil_append] at h
    injection h with h1 h2
    exact Or.inl ⟨rfl, h1, h2⟩
  | cons k t =>
    rw [List.cons_append] at h
    injection h with h1 h2
    exact Or.inr ⟨t, by rw [h1], h2⟩

theorem decodeChunks_flush_length (lits : List Int) :
    (decodeChunks (flushChunks lits)).length = lits.length := by
  unfold flushChunks
  by_cases hn : lits = []
  · rw [if_pos hn, hn]
    rfl
  · rw [if_neg hn, decodeChunks_cons, decodeChunks_nil, List.append_nil, Chunk.decode]

theorem encodeChunks_flush_length (lits : List Int) :
    (encodeChunks (flushChunks lits)).length ≤ lits.length + 1
      ∧ (lits = [] → (encodeChunks (flushChunks lits)).length = 0) := by
  unfold flushChunks
  by_cases hn : lits = []
  · rw [if_pos hn, hn]
    exact ⟨by simp [encodeChunks], fun _ => rfl⟩
  · rw [if_neg hn, encodeChunks_cons, encodeChunks_nil, List.append_nil, Chunk.encode]
    exact ⟨by simp, fun e => absurd e hn⟩

/-- The output of the scan is at most a third longer than the pending
literals and the input together. -/
theorem packScan_length (L lits : List Int) (cs : List Chunk) (h : PackScan L lits cs) :
    (encodeChunks cs).length
      ≤ lits.length + L.length + (lits.length + L.length + 2) / 3 := by
  induction h with
  | done => simp [encodeChunks]
  | last a lits =>
    simp only [encodeChunks_cons, encodeChunks_nil, Chunk.encode, List.length_append,
      List.length_singleton, List.length_nil]
    omega
  | full a b rest lits cs hne hfull _ ih =>
    simp only [encodeChunks_cons, Chunk.encode, List.length_append,
      List.length_singleton, List.length_nil, List.length_cons] at ih hfull ⊢
    unfold MAX_LITERAL_LENGTH at hfull
    omega
  | push a b rest lits cs hne hfull _ ih =>
    simp only [List.length_append, List.length_singleton, List.length_cons,
      List.length_nil] at ih ⊢
    omega
  | run a b rest lits cs heq _ ih =>
    obtain ⟨r1, r2, r3, _, _, _⟩ := runChunk_spec (a :: b :: rest) (by simp)
    obtain ⟨f1, f2⟩ := encodeChunks_flush_length lits
    have hrun : (Chunk.run (runChunk (a :: b :: rest)).1 (_toUInt8 a)).encode.length = 2 := rfl
    rw [encodeChunks_append, encodeChunks_cons, List.length_append, List.length_append, hrun]
    rw [List.length_drop] at ih
    simp only [List.length_nil, Nat.zero_add] at ih
    by_cases hl : lits = []
    · rw [f2 hl, hl]
      simp only [List.length_nil, Nat.zero_add]
      omega
    · have hpos : 0 < lits.length := List.length_pos.mpr hl
      omega

/-! ## The loop of `pack` at two equal bytes, and a worst case -/

/-- At an index `i` where the byte equals its successor, whatever `dest` and
the pending literals are, the loop of `pack` flushes the pending literals as
they are, emits a repeat chunk of `n ≥ 2` copies of that byte and goes on at
index `i + n` with no pending literals. -/
theorem packLoop_at_equal (x : List Int) (i : Nat) (dest lits : List Int)
    (hi : i + 1 < x.length) (heq : _toUInt8Elem x[i]? = _toUInt8Elem x[i + 1]?) :
    ∃ n : Nat, 2 ≤ n ∧ n ≤ 128 ∧ i + n ≤ x.length
      ∧ packLoop x x.length i dest lits
        = packLoop x x.length (i + n)
            (dest ++ _literalToResult lits ++ [257 - (n : Int), _toUInt8Elem x[i]?]) [] := by
  have h0 : i < x.length := by omega
  have hd : x.drop i = x[i] :: x[i + 1] :: x.drop (i + 1 + 1) := by
    rw [List.drop_eq_getElem_cons h0, List.drop_eq_getElem_cons hi]
  rw [List.getElem?_eq_getElem h0, List.getElem?_eq_getElem hi, toUInt8Elem_some,
    toUInt8Elem_some] at heq
  obtain ⟨r1, r2, r3, r4, _, _⟩ := runChunk_spec (x[i] :: x[i + 1] :: x.drop (i + 1 + 1))
    (by simp only [List.length_cons]; omega)
  have hlen : (x[i] :: x[i + 1] :: x.drop (i + 1 + 1)).length = x.length - i := by
    rw [← hd, List.length_drop]
  refine ⟨(runChunk (x[i] :: x[i + 1] :: x.drop (i + 1 + 1))).1, r1, r2, by omega, ?_⟩
  rw [packLoop_drop, packLoop_drop, hd, packFrom_eq _ _ _ lits heq, r4, ← hd, List.drop_drop,
    List.getElem?_eq_getElem h0, toUInt8Elem_some]
  simp only [List.append_assoc]

/-- A literal, a run of `2 ≤ n ≤ 128` copies and a literal, all bytes. -/
theorem pack_literal_run_literal_eq (a v b : Int) (n : Nat)
    (ha : 0 ≤ a ∧ a ≤ 255) (hv : 0 ≤ v ∧ v ≤ 255) (hb : 0 ≤ b ∧ b ≤ 255)
    (hav : a ≠ v) (hvb : v ≠ b) (h2 : 2 ≤ n) (h128 : n ≤ 128) :
    pack (a :: (List.replicate n v ++ [b])) = [0, a, 257 - (n : Int), v, 0, b] := by
  obtain ⟨r1, r2⟩ := runChunk_run_then v b n hv.1 hv.2 hvb h2 h128
  obtain ⟨m, rfl⟩ : ∃ m, n = m + 2 := ⟨n - 2, by omega⟩
  have e : List.replicate (m + 2) v ++ [b] = v :: v :: (List.replicate m v ++ [b]) := rfl
  have hne : _toUInt8 a ≠ _toUInt8 v := by
    rw [toUInt8_of_byte a ha.1 ha.2, toUInt8_of_byte v hv.1 hv.2]
    exact hav
  have hrun := packFrom_eq v v (List.replicate m v ++ [b]) [a] rfl
  rw [← e, r1, r2, List.drop_left' (by simp), packFrom_single, List.nil_append,
    toUInt8_of_byte v hv.1 hv.2, toUInt8_of_byte b hb.1 hb.2] at hrun
  rw [pack_eq_packFrom, e, packFrom_ne a v _ [] hne, if_neg (by simp [MAX_LITERAL_LENGTH]),
    toUInt8_of_byte a ha.1 ha.2, List.nil_append, ← e, hrun]
  rfl

/-! ## The loops, one iteration at a time -/

/-- One iteration of the loop of `pack` is its body followed by `++i`. -/
theorem packLoop_body (src : List Int) (max i : Nat) (dest lits : List Int) (hi : i < max) :
    packLoop src max i dest lits
      = packLoop src max ((packBody src max i dest lits).1 + 1)
          (packBody src max i dest lits).2.1 (packBody src max i dest lits).2.2 := by
  conv_lhs => rw [packLoop]
  rw [if_pos hi]
  unfold packBody
  by_cases h1 : i + 1 < max
  · simp only [if_pos h1]
    by_cases h2 : _toUInt8Elem src[i]? = _toUInt8Elem src[i + 1]?
    · simp only [if_pos h2]
      cases runLoop src (_toUInt8Elem src[i]?) i
        (if max ≤ i + MAX_LITERAL_LENGTH then max - i - 1 else MAX_LITERAL_LENGTH) 2 1 with
      | none => rfl
      | some r => rfl
    · simp only [if_neg h2]
      by_cases h3 : (lits ++ [_toUInt8Elem src[i]?]).length = MAX_LITERAL_LENGTH
      · simp only [if_pos h3]
      · simp only [if_neg h3]
  · simp only [if_neg h1]

/-- The body of the loop of `pack` never moves the index back, and leaves it
below the loop bound. -/
theorem packBody_index (src : List Int) (max i : Nat) (dest lits : List Int) (hi : i < max) :
    i ≤ (packBody src max i dest lits).1 ∧ (packBody src max i dest lits).1 < max := by
  unfold packBody
  by_cases h1 : i + 1 < max
  · simp only [if_pos h1]
    by_cases h2 : _toUInt8Elem src[i]? = _toUInt8Elem src[i + 1]?
    · simp only [if_pos h2]
      generalize hm : (if max ≤ i + MAX_LITERAL_LENGTH then max - i - 1
        else MAX_LITERAL_LENGTH) = maxJ
      have hb : i + maxJ < max := by
        rw [← hm]
        unfold MAX_LITERAL_LENGTH
        split_ifs <;> omega
      cases hr : runLoop src (_toUInt8Elem src[i]?) i maxJ 2 1 with
      | none =>
        dsimp only
        omega
      | some r =>
        obtain ⟨j, rl⟩ := r
        obtain ⟨a1, a2, _⟩ := runLoop_some src _ i maxJ _ 2 1 j rl rfl hr
        dsimp only
        omega
    · simp only [if_neg h2]
      split_ifs <;> exact ⟨Nat.le_refl _, hi⟩
  · simp only [if_neg h1]
    exact ⟨Nat.le_refl _, hi⟩

/-- The loop of `pack` ends within `max - i` iterations. -/
theorem packIterate_eq (src : List Int) (max : Nat) :
    ∀ (fuel i : Nat) (dest lits : List Int), max - i ≤ fuel →
      packIterate fuel src max i dest lits = some (packLoop src max i dest lits) := by
  intro fuel
  induction fuel with
  | zero =>
    intro i dest lits h
    have hi : ¬ i < max := by omega
    rw [packIterate, if_neg hi, packLoop, if_neg hi]
  | succ fuel ih =>
    intro i dest lits h
    by_cases hi : i < max
    · obtain ⟨b1, b2⟩ := packBody_index src max i dest lits hi
      rw [packIterate, if_pos hi, ih _ _ _ (by omega), ← packLoop_body src max i dest lits hi]
    · rw [packIterate, if_neg hi, packLoop, if_neg hi]

/-- One iteration of the loop of `unpack` is its body followed by `++i`. -/
theorem unpackLoop_body (src : List Int) (max i : Nat) (dest : List Int) (hi : i < max) :
    unpackLoop src max i dest
      = unpackLoop src max ((unpackBody src i dest).1 + 1) (unpackBody src i dest).2 := by
  conv_lhs => rw [unpackLoop]
  rw [if_pos hi]
  unfold unpackBody
  generalize _toInt8 (_toUInt8Elem src[i]?) = c
  by_cases h1 : c = -128
  · simp only [if_pos h1]
  · simp only [if_neg h1]
    by_cases h2 : 0 ≤ c
    · simp only [if_pos h2]
    · simp only [if_neg h2]

/-- The body of the loop of `unpack` never moves the index back. -/
theorem unpackBody_index (src : List Int) (i : Nat) (dest : List Int) :
    i ≤ (unpackBody src i dest).1 := by
  unfold unpackBody
  dsimp only
  split_ifs <;> dsimp only <;> omega

/-- The loop of `unpack` ends within `max - i` iterations. -/
theorem unpackIterate_eq (src : List Int) (max : Nat) :
    ∀ (fuel i : Nat) (dest : List Int), max - i ≤ fuel →
      unpackIterate fuel src max i dest = some (unpackLoop src max i dest) := by
  intro fuel
  induction fuel with
  | zero =>
    intro i dest h
    have hi : ¬ i < max := by omega
    rw [unpackIterate, if_neg hi, unpackLoop, if_neg hi]
  | succ fuel ih =>
    intro i dest h
    by_cases hi : i < max
    · have b1 := unpackBody_index src i dest
      rw [unpackIterate, if_pos hi, ih _ _ (by omega), ← unpackLoop_body src max i dest hi]
    · rw [unpackIterate, if_neg hi, unpackLoop, if_neg hi]

/-- The length of the output of the loop of `unpack` is the length of `dest`
and the declared run lengths. -/
theorem unpackLoop_length (src : List Int) (max : Nat) :
    ∀ (n i : Nat) (dest : List Int) (total : Nat), max - i = n →
      (unpackLoop src max i dest).length + total
        = dest.length + declaredLoop src max i total := by
  intro n
  induction n using Nat.strong_induction_on with
  | _ n ih =>
    intro i dest total h
    by_cases hi : i < max
    · have hstep : ∀ (k : Nat) (d : List Int) (t : Nat),
          (unpackLoop src max (i + k + 1) d).length + t
            = d.length + declaredLoop src max (i + k + 1) t := by
        intro k d t
        exact ih (max - (i + k + 1)) (by omega) (i + k + 1) d t rfl
      conv_lhs => rw [unpackLoop]
      conv_rhs => rw [declaredLoop]
      simp only [if_pos hi]
      generalize _toInt8 (_toUInt8Elem src[i]?) = c
      by_cases h1 : c = -128
      · simp only [if_pos h1]
        exact hstep 0 dest total
      · simp only [if_neg h1]
        by_cases h2 : 0 ≤ c
        · simp only [if_pos h2]
          have h3 := hstep (c + 1).toNat (literalLoop src i (c + 1).toNat 0 dest)
            (total + (c + 1).toNat)
          rw [literalLoop_eq _ _ _ _ 0 dest rfl] at h3 ⊢
          simp only [List.length_append, List.length_map, List.length_range'] at h3 ⊢
          omega
        · simp only [if_neg h2]
          have h3 := hstep 1 (repeatLoop src i (|c| + 1).toNat 0 dest) (total + (|c| + 1).toNat)
          rw [repeatLoop_eq _ _ _ _ 0 dest rfl] at h3 ⊢
          simp only [List.length_append, List.length_replicate] at h3 ⊢
          omega
    · rw [unpackLoop, if_neg hi, declaredLoop, if_neg hi]

/-! ## Where the chunks of the scan lie in the input -/

/-- The chunks of the scan decode to the pending literals followed by the
masked input. -/
theorem packScan_decode (L lits : List Int) (cs : List Chunk) (h : PackScan L lits cs) :
    decodeChunks cs = lits ++ L.map _toUInt8 := by
  induction h with
  | done => rfl
  | last a lits =>
    rw [decodeChunks_cons, decodeChunks_nil, Chunk.decode, List.append_nil]
    rfl
  | full a b rest lits cs hne hfull _ ih =>
    rw [decodeChunks_cons, ih, Chunk.decode]
    simp
  | push a b rest lits cs hne hfull _ ih =>
    rw [ih]
    simp
  | run a b rest lits cs heq _ ih =>
    have htake := runChunk_take a b rest heq
    have hf : decodeChunks (flushChunks lits) = lits := by
      unfold flushChunks
      by_cases hl : lits = []
      · rw [if_pos hl, hl]
        rfl
      · rw [if_neg hl, decodeChunks_cons, decodeChunks_nil, Chunk.decode, List.append_nil]
    rw [decodeChunks_append, decodeChunks_cons, ih, hf, Chunk.decode, List.nil_append,
      ← htake, ← List.map_append, List.take_append_drop]

/-- With literals pending, the first chunk of the scan is a literal chunk. -/
theorem packScan_head_of_pending (L lits : List Int) (cs : List Chunk)
    (h : PackScan L lits cs) :
    lits ≠ [] → ∃ d cs2, cs = Chunk.literal d :: cs2 := by
  induction h with
  | done =>
    intro hl
    exact absurd rfl hl
  | last a lits =>
    intro _
    exact ⟨_, _, rfl⟩
  | full a b rest lits cs hne hfull _ ih =>
    intro _
    exact ⟨_, _, rfl⟩
  | push a b rest lits cs hne hfull _ ih =>
    intro _
    exact ih (by simp)
  | run a b rest lits cs heq _ ih =>
    intro hl
    unfold flushChunks
    rw [if_neg hl]
    exact ⟨_, _, rfl⟩

/-- Every chunk of the scan that does not take up pending literals starts a
scan of its own: the chunks from it on are the chunks of the scan of the input
from the position `s` where the chunk starts, with no literals pending. -/
theorem packScan_split (L lits : List Int) (cs : List Chunk) (h : PackScan L lits cs) :
    ∀ (cs1 : List Chunk) (c : Chunk) (cs2 : List Chunk),
      cs = cs1 ++ c :: cs2 → (cs1 = [] → lits = []) →
      ∃ s, (decodeChunks cs1).length = lits.length + s
        ∧ PackScan (L.drop s) [] (c :: cs2) := by
  induction h with
  | done =>
    intro cs1 c cs2 hs _
    cases cs1 <;> cases hs
  | last a lits =>
    intro cs1 c cs2 hs hl
    rcases cons_eq_append_run _ _ _ _ _ hs with ⟨h1, h2, h3⟩ | ⟨t, _, h2⟩
    · have e := hl h1
      subst e h1 h2 h3
      exact ⟨0, rfl, PackScan.last a []⟩
    · cases t <;> cases h2
  | full a b rest lits cs hne hfull hsc ih =>
    intro cs1 c cs2 hs hl
    rcases cons_eq_append_run _ _ _ _ _ hs with ⟨h1, h2, h3⟩ | ⟨t, h1, h2⟩
    · have e := hl h1
      subst e h1 h2 h3
      exact ⟨0, rfl, PackScan.full a b rest [] cs hne hfull hsc⟩
    · obtain ⟨s, e1, e2⟩ := ih t c cs2 h2 (fun _ => rfl)
      refine ⟨s + 1, ?_, e2⟩
      rw [h1, decodeChunks_cons, Chunk.decode, List.length_append, List.length_append,
        List.length_singleton, e1, List.length_nil]
      omega
  | push a b rest lits cs hne hfull hsc ih =>
    intro cs1 c cs2 hs hl
    by_cases h1 : cs1 = []
    · have e := hl h1
      subst e h1
      rw [List.nil_append] at hs
      subst hs
      exact ⟨0, rfl, PackScan.push a b rest [] _ hne hfull hsc⟩
    · obtain ⟨s, e1, e2⟩ := ih cs1 c cs2 hs (fun e => absurd e h1)
      refine ⟨s + 1, ?_, e2⟩
      rw [e1, List.length_append, List.length_singleton]
      omega
  | run a b rest lits cs heq hsc ih =>
    intro cs1 c cs2 hs hl
    have hfresh : PackScan (a :: b :: rest) []
        (Chunk.run (runChunk (a :: b :: rest)).1 (_toUInt8 a) :: cs) := by
      have := PackScan.run a b rest [] cs heq hsc
      simpa [flushChunks] using this
    have key : ∀ (t : List Chunk), Chunk.run (runChunk (a :: b :: rest)).1 (_toUInt8 a) :: cs
          = t ++ c :: cs2 →
        ∃ s, (decodeChunks t).length = s ∧ PackScan ((a :: b :: rest).drop s) [] (c :: cs2) := by
      intro t ht
      rcases cons_eq_append_run _ _ _ _ _ ht with ⟨h1, h2, h3⟩ | ⟨u, h1, h2⟩
      · subst h1 h2 h3
        exact ⟨0, rfl, hfresh⟩
      · obtain ⟨s, e1, e2⟩ := ih u c cs2 h2 (fun _ => rfl)
        refine ⟨(runChunk (a :: b :: rest)).1 + s, ?_, ?_⟩
        · rw [h1, decodeChunks_cons, Chunk.decode, List.length_append, List.length_replicate,
            e1, List.length_nil]
          omega
        · rw [List.drop_drop] at e2
          exact e2
    unfold flushChunks at hs
    by_cases hn : lits = []
    · rw [if_pos hn, List.nil_append] at hs
      obtain ⟨s, e1, e2⟩ := key cs1 hs
      exact ⟨s, by rw [hn, e1]; simp, e2⟩
    · rw [if_neg hn, List.singleton_append] at hs
      rcases cons_eq_append_run _ _ _ _ _ hs with ⟨h1, _, _⟩ | ⟨t, h1, h2⟩
      · exact absurd (hl h1) hn
      · obtain ⟨s, e1, e2⟩ := key t h2
        refine ⟨s, ?_, e2⟩
        rw [h1, decodeChunks_cons, Chunk.decode, List.length_append, e1]

/-- A scan without pending literals whose first chunk is a repeat chunk of `n`
copies of `v`: `n` is between 2 and 128, the run stops short of 128 bytes only
where the input holds no `v` (or ends), and the other chunks are the chunks of
the scan of the input after the `n` bytes. -/
theorem packScan_head_run (L lits : List Int) (cs : List Chunk) (h : PackScan L lits cs) :
    lits = [] → ∀ (n : Nat) (v : Int) (cs2 : List Chunk), cs = Chunk.run n v :: cs2 →
      2 ≤ n ∧ n ≤ 128 ∧ n ≤ L.length ∧ (n < 128 → L[n]? ≠ some v)
        ∧ PackScan (L.drop n) [] cs2 := by
  induction h with
  | done =>
    intro _ n v cs2 hs
    cases hs
  | last a lits =>
    intro _ n v cs2 hs
    cases hs
  | full a b rest lits cs hne hfull _ ih =>
    intro _ n v cs2 hs
    cases hs
  | push a b rest lits cs hne hfull hsc ih =>
    intro _ n v cs2 hs
    obtain ⟨d, cs3, e⟩ := packScan_head_of_pending _ _ _ hsc (by simp)
    rw [e] at hs
    cases hs
  | run a b rest lits cs heq hsc ih =>
    intro hl n v cs2 hs
    obtain ⟨r1, r2, r3, _, _, r6⟩ := runChunk_spec (a :: b :: rest) (by simp)
    rw [hl] at hs
    have hs2 : Chunk.run (runChunk (a :: b :: rest)).1 (_toUInt8 a) :: cs
        = Chunk.run n v :: cs2 := by
      simpa [flushChunks] using hs
    injection hs2 with h1 h2
    injection h1 with hm hv
    subst hm hv h2
    refine ⟨r1, r2, r3, ?_, hsc⟩
    intro hlt
    by_cases hlen : (runChunk (a :: b :: rest)).1 < (a :: b :: rest).length
    · exact r6 hlt hlen
    · rw [List.getElem?_eq_none (by omega)]
      exact fun e => by cases e

/-- A scan whose first chunk is a literal chunk: the chunk holds the pending
literals and then the first `k` masked bytes of the input, each of which
differs from the masked byte after it (or is the last byte of the input). -/
theorem packScan_head_literal (L lits : List Int) (cs : List Chunk)
    (h : PackScan L lits cs) :
    ∀ (d : List Int) (cs2 : List Chunk), cs = Chunk.literal d :: cs2 →
      ∃ k, d = lits ++ (L.map _toUInt8).take k ∧ k ≤ L.length
        ∧ ∀ j, j < k → (L.map _toUInt8)[j + 1]? ≠ (L.map _toUInt8)[j]? := by
  induction h with
  | done =>
    intro d cs2 hs
    cases hs
  | last a lits =>
    intro d cs2 hs
    injection hs with h1 _
    injection h1 with h1
    refine ⟨1, by rw [← h1]; rfl, by simp, ?_⟩
    intro j hj
    have hj0 : j = 0 := by omega
    subst hj0
    simp
  | full a b rest lits cs hne hfull _ ih =>
    intro d cs2 hs
    injection hs with h1 _
    injection h1 with h1
    refine ⟨1, by rw [← h1]; rfl, by simp, ?_⟩
    intro j hj
    have hj0 : j = 0 := by omega
    subst hj0
    simpa using Ne.symm hne
  | push a b rest lits cs hne hfull _ ih =>
    intro d cs2 hs
    obtain ⟨k, e1, e2, e3⟩ := ih d cs2 hs
    refine ⟨k + 1, by rw [e1]; simp, by simpa using e2, ?_⟩
    intro j hj
    cases j with
    | zero => simpa using Ne.symm hne
    | succ j =>
      have := e3 j (by omega)
      simpa using this
  | run a b rest lits cs heq _ ih =>
    intro d cs2 hs
    unfold flushChunks at hs
    by_cases hn : lits = []
    · rw [if_pos hn, List.nil_append] at hs
      cases hs
    · rw [if_neg hn, List.singleton_append] at hs
      injection hs with h1 _
      injection h1 with h1
      exact ⟨0, by rw [← h1]; simp, Nat.zero_le _, fun j hj => absurd hj (Nat.not_lt_zero j)⟩

/-- Every position of the decoded sequence lies in one of the chunks. -/
theorem chunk_at (cs : List Chunk) :
    ∀ i, i < (decodeChunks cs).length →
      ∃ (cs1 : List Chunk) (c : Chunk) (cs2 : List Chunk), cs = cs1 ++ c :: cs2
        ∧ (decodeChunks cs1).length ≤ i ∧ i < (decodeChunks cs1).length + c.decode.length := by
  induction cs with
  | nil =>
    intro i hi
    rw [decodeChunks_nil] at hi
    cases hi
  | cons c cs ih =>
    intro i hi
    rw [decodeChunks_cons, List.length_append] at hi
    by_cases hlt : i < c.decode.length
    · exact ⟨[], c, cs, rfl, Nat.zero_le _, by rw [decodeChunks_nil]; simpa using hlt⟩
    · obtain ⟨cs1, k, cs2, e1, e2, e3⟩ := ih (i - c.decode.length) (by omega)
      refine ⟨c :: cs1, k, cs2, by rw [e1]; rfl, ?_, ?_⟩
      · rw [decodeChunks_cons, List.length_append]
        omega
      · rw [decodeChunks_cons, List.length_append]
        omega

/-- The bytes of a chunk are the bytes of the decoded sequence at the
positions of the chunk. -/
theorem decodeChunks_getElem? (cs1 : List Chunk) (c : Chunk) (cs2 : List Chunk) (j : Nat)
    (hj : j < c.decode.length) :
    (decodeChunks (cs1 ++ c :: cs2))[(decodeChunks cs1).length + j]? = c.decode[j]? := by
  rw [decodeChunks_append, decodeChunks_cons,
    List.getElem?_append_right (Nat.le_add_right _ _), Nat.add_sub_cancel_left,
    List.getElem?_append_left hj]

/-- The decoded sequence after the chunks `cs1` and the chunk `c`. -/
theorem decodeChunks_drop (cs1 : List Chunk) (c : Chunk) (cs2 : List Chunk) :
    (decodeChunks (cs1 ++ c :: cs2)).drop ((decodeChunks cs1).length + c.decode.length)
      = decodeChunks cs2 := by
  rw [decodeChunks_append, decodeChunks_cons, ← List.append_assoc,
    List.drop_left' (by rw [List.length_append])]

/-- The output of `pack` can be read as a list of complete chunks. -/
theorem pack_reading_exists (x : List Int) :
    ∃ cs : List Chunk, (∀ c ∈ cs, c.WellFormed) ∧ pack x = encodeChunks cs := by
  obtain ⟨cs, hcs⟩ := packScan_exists x.length x [] rfl (fun _ => rfl)
  have h1 := packScan_sound x [] cs hcs (by simp)
  have h2 := packScan_packed x [] cs hcs (by simp) (fun b hb => by cases hb)
  exact ⟨cs, fun c hc => (h2 c hc).1, by rw [pack_eq_packFrom, h1]⟩

theorem drop_bytes (x : List Int) (s : Nat) (hx : ∀ b ∈ x, 0 ≤ b ∧ b ≤ 255) :
    (x.drop s).map _toUInt8 = x.drop s :=
  map_toUInt8_of_bytes _ (fun b hb => hx b (List.mem_of_mem_drop hb))

/-! ## The claims on the codec -/

/-- Claim C1. Round trip: for every finite sequence `x` of bytes (each element
an integer in `[0, 255]`), the empty sequence included, `unpack (pack x)`
equals `x`. -/
theorem unpack_pack_roundtrip (x : List Int) (hx : ∀ b ∈ x, 0 ≤ b ∧ b ≤ 255) :
    unpack (pack x) = x := by
  obtain ⟨cs, h1, h2, h3⟩ := packFrom_chunks x.length x [] rfl (fun b hb => by cases hb)
    (by simp) (fun _ => rfl)
  have h := unpack_encodeChunks cs [] (fun c hc => (h3 c hc).1)
  rw [List.append_nil, unpack_nil, List.append_nil, h2, List.nil_append,
    map_toUInt8_of_bytes x hx, ← h1, ← pack_eq_packFrom] at h
  exact h

/-- Witness of `unpack_pack_roundtrip` on a sequence with a literal, a run and
a literal. -/
theorem unpack_pack_roundtrip_witness :
    (∀ b ∈ ([1, 2, 2, 2, 9] : List Int), 0 ≤ b ∧ b ≤ 255)
      ∧ unpack (pack [1, 2, 2, 2, 9]) = [1, 2, 2, 2, 9] :=
  ⟨by decide, unpack_pack_roundtrip [1, 2, 2, 2, 9] (by decide)⟩

/-- Claim C2. Well-formed output: for every sequence `x` (of bytes, and of any
integers as well), `pack x` is a concatenation of complete chunks, each either
a literal chunk `[n - 1, b1 .. bn]` with `1 ≤ n ≤ 128` or a repeat chunk
`[256 - (n - 1), v]` with `2 ≤ n ≤ 128`; every control byte, read as signed
8-bit, lies in `[-127, 127]`, the byte `0x80` is no control byte, and no chunk
decodes to more than 128 bytes. -/
theorem pack_wellFormed (x : List Int) :
    ∃ cs : List Chunk, pack x = encodeChunks cs ∧
      ∀ c ∈ cs, c.WellFormed
        ∧ -127 ≤ _toInt8 c.control ∧ _toInt8 c.control ≤ 127
        ∧ c.control ≠ 128
        ∧ c.decode.length ≤ 128 := by
  obtain ⟨cs, h1, _, h3⟩ := packFrom_chunks x.length x [] rfl (fun b hb => by cases hb)
    (by simp) (fun _ => rfl)
  refine ⟨cs, by rw [pack_eq_packFrom, h1], ?_⟩
  intro c hc
  have hw := (h3 c hc).1
  refine ⟨hw, ?_⟩
  cases c with
  | literal d =>
    obtain ⟨a1, a2, _⟩ := hw
    simp only [Chunk.control, Chunk.decode]
    rw [toInt8_of_small _ (by omega) (by omega)]
    omega
  | run n v =>
    obtain ⟨a1, a2, _⟩ := hw
    simp only [Chunk.control, Chunk.decode, List.length_replicate]
    rw [toInt8_of_large _ (by omega) (by omega)]
    omega

/-- Claim C3. Decoder semantics on well-formed input: for every sequence
`rest`, (i) for every control byte `c` with `0 ≤ c ≤ 127` and every byte
sequence `d` of length `c + 1`, `unpack ([c] ++ d ++ rest) = d ++ unpack rest`;
(ii) for every control byte `c` with `129 ≤ c ≤ 255` (signed `-127 .. -1`) and
every byte `v`, `unpack ([c, v] ++ rest)` is `v` repeated `257 - c` times,
that is `-signed(c) + 1` times, followed by `unpack rest`. -/
theorem unpack_chunk_semantics (rest : List Int) :
    (∀ (c : Int) (d : List Int), 0 ≤ c → c ≤ 127 → (d.length : Int) = c + 1 →
        (∀ b ∈ d, 0 ≤ b ∧ b ≤ 255) →
        unpack ([c] ++ d ++ rest) = d ++ unpack rest)
    ∧ (∀ (c v : Int), 129 ≤ c → c ≤ 255 → 0 ≤ v → v ≤ 255 →
        unpack ([c, v] ++ rest) = List.replicate (257 - c).toNat v ++ unpack rest
          ∧ -127 ≤ _toInt8 c ∧ _toInt8 c ≤ -1
          ∧ ((257 - c).toNat : Int) = -(_toInt8 c) + 1) := by
  constructor
  · intro c d h0 h1 hd hb
    rw [List.append_assoc, List.singleton_append, unpack_literal c d rest h0 h1 hd,
      map_toUInt8_of_bytes d hb]
  · intro c v h0 h1 hv0 hv1
    refine ⟨?_, ?_⟩
    · rw [List.cons_append, List.cons_append, List.nil_append, unpack_repeat c v rest h0 h1,
        toUInt8_of_byte v hv0 hv1]
    · rw [toInt8_of_large c (by omega) h1]
      omega

/-- Witness of `unpack_chunk_semantics`: a literal chunk of three bytes and a
repeat chunk of three copies, each before the chunk `[0, 5]`. -/
theorem unpack_chunk_semantics_witness :
    unpack ([2] ++ [7, 8, 9] ++ [0, 5]) = [7, 8, 9] ++ unpack [0, 5]
      ∧ unpack ([254, 3] ++ [0, 5]) = List.replicate (257 - 254 : Int).toNat 3 ++ unpack [0, 5] :=
  ⟨(unpack_chunk_semantics [0, 5]).1 2 [7, 8, 9] (by decide) (by decide) (by decide)
      (by decide),
    ((unpack_chunk_semantics [0, 5]).2 254 3 (by decide) (by decide) (by decide)
      (by decide)).1⟩

/-- Claim C4. No-op transparency: for every encoded sequence made of complete
chunks `cs` (so that the next byte is in control position) and every sequence
`s`, `unpack (p ++ [0x80] ++ s) = unpack (p ++ s)`; in particular
`unpack ([0x80] ++ s) = unpack s`: the byte `0x80` contributes nothing to the
output and consumes no data byte after it. -/
theorem unpack_noop_transparent (cs : List Chunk) (s : List Int)
    (hcs : ∀ c ∈ cs, c.WellFormed) :
    unpack (encodeChunks cs ++ [128] ++ s) = unpack (encodeChunks cs ++ s)
      ∧ unpack ([128] ++ s) = unpack s := by
  have h : unpack ([128] ++ s) = unpack s := unpack_noop s
  refine ⟨?_, h⟩
  rw [List.append_assoc, unpack_encodeChunks cs _ hcs, unpack_encodeChunks cs _ hcs, h]

/-- Witness of `unpack_noop_transparent`: the byte `0x80` between a literal
chunk and a repeat chunk. -/
theorem unpack_noop_transparent_witness :
    (∀ c ∈ [Chunk.literal [7, 8]], c.WellFormed)
      ∧ unpack (encodeChunks [Chunk.literal [7, 8]] ++ [128] ++ [254, 3])
          = unpack (encodeChunks [Chunk.literal [7, 8]] ++ [254, 3])
      ∧ unpack ([128] ++ [254, 3]) = unpack [254, 3] :=
  ⟨by decide, unpack_noop_transparent [Chunk.literal [7, 8]] [254, 3] (by decide)⟩

/-- Claim C5, counterexample. The claim says that `unpack` fails with a
`CorruptData` error on truncated input.  The sequence `[2, 7]` is truncated
(the control byte `2` declares a literal run of three bytes and one follows),
and `unpack` returns `[7, 0, 0]` on it. -/
theorem unpack_truncated_counterexample :
    Truncated [2, 7] ∧ unpack [2, 7] = [7, 0, 0]
      ∧ unpackOutcome [2, 7] ≠ Outcome.corruptData := by
  refine ⟨⟨[], 2, [7], by decide, by decide, by decide, Or.inl (by decide)⟩, ?_, ?_⟩
  · rw [unpack_truncated_literal 2 [7] (by decide) (by decide) (by decide)]
    decide
  · intro h
    cases h

/-- Claim C5, amended. Truncated input is not rejected: when, after complete
chunks, a control byte declares a literal run or a repeat run whose required
bytes lie beyond the end of the sequence, `unpack` raises no error; it returns
the decoded chunks followed by a run of the full declared length, in which
each missing byte is `0`. -/
theorem unpack_truncated_returns (cs : List Chunk) (c : Int) (d : List Int)
    (hcs : ∀ k ∈ cs, k.WellFormed) (hd : ∀ b ∈ d, 0 ≤ b ∧ b ≤ 255)
    (h : (0 ≤ c ∧ c ≤ 127 ∧ (d.length : Int) < c + 1) ∨ (129 ≤ c ∧ c ≤ 255 ∧ d = [])) :
    Truncated (encodeChunks cs ++ [c] ++ d)
      ∧ unpackOutcome (encodeChunks cs ++ [c] ++ d)
        = Outcome.ok (decodeChunks cs ++ d
            ++ List.replicate ((if c ≤ 127 then c + 1 else 257 - c).toNat - d.length) 0) := by
  refine ⟨⟨cs, c, d, hcs, hd, rfl, h⟩, ?_⟩
  rw [unpackOutcome, List.append_assoc, unpack_encodeChunks cs _ hcs, List.singleton_append]
  rcases h with ⟨h0, h1, h2⟩ | ⟨h0, h1, h2⟩
  · rw [unpack_truncated_literal c d h0 h1 h2, map_toUInt8_of_bytes d hd, if_pos h1,
      List.append_assoc]
  · subst h2
    rw [unpack_truncated_repeat c h0 h1, if_neg (by omega)]
    simp

/-- Witness of `unpack_truncated_returns`: a literal chunk, then the control
byte `2` followed by one byte only. -/
theorem unpack_truncated_returns_witness :
    Truncated (encodeChunks [Chunk.literal [7, 8]] ++ [2] ++ [9])
      ∧ unpackOutcome (encodeChunks [Chunk.literal [7, 8]] ++ [2] ++ [9])
        = Outcome.ok (decodeChunks [Chunk.literal [7, 8]] ++ [9]
            ++ List.replicate ((if (2 : Int) ≤ 127 then (2 : Int) + 1 else 257 - 2).toNat
                - ([9] : List Int).length) 0) :=
  unpack_truncated_returns [Chunk.literal [7, 8]] 2 [9] (by decide) (by decide)
    (Or.inl (by decide))

/-- Claim C6. Runs of one value: for every byte `v` and every `n = 128 * q + r`
with `0 ≤ r < 128` (`n ≥ 1`, and `n = 0` as well), `pack` of `n` copies of `v`
is `q` copies of `[0x81, v]` followed by nothing if `r = 0`, by `[0, v]` if
`r = 1`, and by `[257 - r, v]` if `r ≥ 2`.  In particular
`pack [5, 5, 5, 5] = [0xFD, 5]`, and 130 identical bytes encode as two runs of
128 and 2: `[0x81, v, 0xFF, v]`. -/
theorem pack_replicate (v : Int) (q r : Nat) (hv0 : 0 ≤ v) (hv1 : v ≤ 255) (hr : r < 128) :
    pack (List.replicate (128 * q + r) v)
        = (List.replicate q [0x81, v]).flatten
          ++ (if r = 0 then [] else if r = 1 then [0, v] else [257 - (r : Int), v])
      ∧ pack [5, 5, 5, 5] = [0xFD, 5]
      ∧ pack (List.replicate 130 v) = [0x81, v, 0xFF, v] := by
  refine ⟨?_, ?_, ?_⟩
  · rw [pack_eq_packFrom, packFrom_replicate_all v hv0 hv1 r hr q]
  · have h := packFrom_replicate_all 5 (by decide) (by decide) 4 (by decide) 0
    rw [pack_eq_packFrom]
    exact h
  · have h := packFrom_replicate_all v hv0 hv1 2 (by decide) 1
    rw [pack_eq_packFrom]
    exact h

/-- Witness of `pack_replicate`: 300 copies of the byte 7, two full runs and a
run of 44. -/
theorem pack_replicate_witness :
    pack (List.replicate (128 * 2 + 44) 7)
        = (List.replicate 2 [0x81, 7]).flatten
          ++ (if 44 = 0 then [] else if 44 = 1 then [0, 7] else [257 - ((44 : Nat) : Int), 7])
      ∧ pack [5, 5, 5, 5] = [0xFD, 5]
      ∧ pack (List.replicate 130 7) = [0x81, 7, 0xFF, 7] :=
  pack_replicate 7 2 44 (by decide) (by decide) (by decide)

/-- Claim C7. Sequences without repeats: for every non-empty byte sequence `x`
in which no two adjacent bytes are equal, `pack x` is the concatenation, over
the consecutive blocks of `x` of 127 bytes (the last block holding the
remaining 1 to 127 bytes), of `[blockLength - 1] ++ block`.  In particular 130
such bytes give exactly two literal chunks of 127 and 3 bytes (control bytes
126 and 2), 132 bytes in all, and `pack [1, 2, 3] = [2, 1, 2, 3]`. -/
theorem pack_no_repeats (x : List Int) (hx : ∀ b ∈ x, 0 ≤ b ∧ b ≤ 255) (hne : x ≠ [])
    (hadj : List.Chain' (· ≠ ·) x) :
    pack x = encodeBlocks (literalBlocks x)
      ∧ (x.length = 130 →
          pack x = [126] ++ x.take 127 ++ ([2] ++ x.drop 127) ∧ (pack x).length = 132)
      ∧ pack [1, 2, 3] = [2, 1, 2, 3] := by
  have hgen : ∀ y : List Int, (∀ b ∈ y, 0 ≤ b ∧ b ≤ 255) → y ≠ [] → List.Chain' (· ≠ ·) y →
      pack y = encodeBlocks (literalBlocks y) := by
    intro y hy hyne hych
    rw [pack_eq_packFrom, packFrom_no_repeats y [] hy hyne hych (by simp), List.nil_append]
  refine ⟨hgen x hx hne hadj, ?_, ?_⟩
  · intro hlen
    have h1 : (x.take 127).length = 127 := by
      rw [List.length_take]
      omega
    have h2 : (x.drop 127).length = 3 := by
      rw [List.length_drop]
      omega
    have h3 : x.drop 127 ≠ [] := by
      intro e
      rw [e] at h2
      cases h2
    have hb : literalBlocks x = [x.take 127, x.drop 127] := by
      conv_lhs => rw [← List.take_append_drop 127 x]
      rw [literalBlocks_append _ _ h1, literalBlocks_short _ h3 (by omega)]
    have hp : pack x = [126] ++ x.take 127 ++ ([2] ++ x.drop 127) := by
      rw [hgen x hx hne hadj, hb]
      simp [encodeBlocks, h1, h2]
    refine ⟨hp, ?_⟩
    rw [hp]
    simp only [List.length_append, List.length_singleton, h1, h2]
  · rw [hgen [1, 2, 3] (by decide) (by decide) (by simp),
      literalBlocks_short [1, 2, 3] (by decide) (by decide)]
    rfl

/-- Witness of `pack_no_repeats`: the five bytes `1, 2, 3, 2, 1`. -/
theorem pack_no_repeats_witness :
    pack [1, 2, 3, 2, 1] = encodeBlocks (literalBlocks [1, 2, 3, 2, 1])
      ∧ (([1, 2, 3, 2, 1] : List Int).length = 130 →
          pack [1, 2, 3, 2, 1]
              = [126] ++ ([1, 2, 3, 2, 1] : List Int).take 127
                ++ ([2] ++ ([1, 2, 3, 2, 1] : List Int).drop 127)
            ∧ (pack [1, 2, 3, 2, 1]).length = 132)
      ∧ pack [1, 2, 3] = [2, 1, 2, 3] :=
  pack_no_repeats [1, 2, 3, 2, 1] (by decide) (by decide) (by simp)

/-- Claim C8. Literal, run, literal: for all bytes `a`, `v`, `b` with `a ≠ v`
and `v ≠ b` and every `n` with `2 ≤ n ≤ 128`,
`pack ([a] ++ (n copies of v) ++ [b]) = [0, a, 256 - (n - 1), v, 0, b]`: the
pending literal is flushed before the run is emitted.  In particular
`pack [1, 2, 2, 2, 9] = [0, 1, 0xFE, 2, 0, 9]`. -/
theorem pack_literal_run_literal (a v b : Int) (n : Nat)
    (ha : 0 ≤ a ∧ a ≤ 255) (hv : 0 ≤ v ∧ v ≤ 255) (hb : 0 ≤ b ∧ b ≤ 255)
    (hav : a ≠ v) (hvb : v ≠ b) (h2 : 2 ≤ n) (h128 : n ≤ 128) :
    pack ([a] ++ List.replicate n v ++ [b]) = [0, a, 256 - ((n : Int) - 1), v, 0, b]
      ∧ pack [1, 2, 2, 2, 9] = [0, 1, 0xFE, 2, 0, 9] := by
  have hgen : ∀ (a v b : Int) (n : Nat), 0 ≤ a ∧ a ≤ 255 → 0 ≤ v ∧ v ≤ 255 →
      0 ≤ b ∧ b ≤ 255 → a ≠ v → v ≠ b → 2 ≤ n → n ≤ 128 →
      pack ([a] ++ List.replicate n v ++ [b]) = [0, a, 256 - ((n : Int) - 1), v, 0, b] := by
    intro a v b n ha hv hb hav hvb h2 h128
    obtain ⟨r1, r2⟩ := runChunk_run_then v b n hv.1 hv.2 hvb h2 h128
    obtain ⟨m, rfl⟩ : ∃ m, n = m + 2 := ⟨n - 2, by omega⟩
    have e : List.replicate (m + 2) v ++ [b] = v :: v :: (List.replicate m v ++ [b]) := rfl
    have hne : _toUInt8 a ≠ _toUInt8 v := by
      rw [toUInt8_of_byte a ha.1 ha.2, toUInt8_of_byte v hv.1 hv.2]
      exact hav
    have hrun := packFrom_eq v v (List.replicate m v ++ [b]) [a] rfl
    rw [← e, r1, r2, List.drop_left' (by simp), packFrom_single, List.nil_append,
      toUInt8_of_byte v hv.1 hv.2, toUInt8_of_byte b hb.1 hb.2] at hrun
    rw [pack_eq_packFrom, List.append_assoc, List.singleton_append, e,
      packFrom_ne a v _ [] hne, if_neg (by simp [MAX_LITERAL_LENGTH]),
      toUInt8_of_byte a ha.1 ha.2,
      List.nil_append, ← e, hrun]
    have c1 : _literalToResult [a] = [0, a] := rfl
    have c2 : _literalToResult [b] = [0, b] := rfl
    have c3 : (257 : Int) - ((m + 2 : Nat) : Int) = 256 - (((m + 2 : Nat) : Int) - 1) := by omega
    rw [c1, c2, c3]
    rfl
  exact ⟨hgen a v b n ha hv hb hav hvb h2 h128,
    hgen 1 2 9 3 (by decide) (by decide) (by decide) (by decide) (by decide) (by decide)
      (by decide)⟩

/-- Witness of `pack_literal_run_literal`: a run of 128 copies between two
literals. -/
theorem pack_literal_run_literal_witness :
    pack ([4] ++ List.replicate 128 6 ++ [5]) = [0, 4, 256 - (((128 : Nat) : Int) - 1), 6, 0, 5]
      ∧ pack [1, 2, 2, 2, 9] = [0, 1, 0xFE, 2, 0, 9] :=
  pack_literal_run_literal 4 6 5 128 (by decide) (by decide) (by decide) (by decide)
    (by decide) (by decide) (by decide)

/-- Claim C9. Empty input: `pack [] = []` and `unpack [] = []`; `pack` is a
total function, defined on every sequence; `pack x` is empty only when `x` is
empty, and every non-empty `x` yields at least 2 output bytes. -/
theorem pack_unpack_empty :
    pack [] = [] ∧ unpack [] = []
      ∧ (∀ x : List Int, pack x = [] ↔ x = [])
      ∧ (∀ x : List Int, x ≠ [] → 2 ≤ (pack x).length) := by
  have hp : pack [] = [] := by
    rw [pack, if_pos (by simp)]
  have hlen : ∀ x : List Int, x ≠ [] → 2 ≤ (pack x).length := by
    intro x hx
    obtain ⟨cs, h1, h2, h3⟩ := packFrom_chunks x.length x [] rfl (fun b hb => by cases hb)
      (by simp) (fun _ => rfl)
    rw [pack_eq_packFrom, h1]
    cases cs with
    | nil =>
      rw [decodeChunks_nil, List.nil_append] at h2
      exact absurd (List.map_eq_nil_iff.mp h2.symm) hx
    | cons c cs =>
      have hw := (h3 c (by simp)).1
      rw [encodeChunks_cons, List.length_append]
      cases c with
      | literal d =>
        obtain ⟨a1, _, _⟩ := hw
        simp only [Chunk.encode, List.length_append, List.length_singleton]
        omega
      | run n v =>
        simp only [Chunk.encode, List.length_cons, List.length_nil]
        omega
  refine ⟨hp, unpack_nil, ?_, hlen⟩
  intro x
  constructor
  · intro h
    by_contra hne
    have := hlen x hne
    rw [h] at this
    simp at this
  · intro h
    rw [h, hp]

/-- Witness of `pack_unpack_empty` on the one-byte sequence `[7]`. -/
theorem pack_unpack_empty_witness :
    ([7] : List Int) ≠ [] ∧ 2 ≤ (pack [7]).length :=
  ⟨by decide, pack_unpack_empty.2.2.2 [7] (by decide)⟩

/-- Claim C11. Totality of the scans: for every finite input, for `unpack` a
malformed or truncated one as well, `pack` and `unpack` terminate.  On every
iteration the body of the loop, which itself advances the index, followed by
`++i` leaves the index strictly greater (and, in `pack`, at most the loop
bound), so that each loop ends within `src.length` iterations; and the scan of
`pack` consumes every input position exactly once: the decoded lengths of the
chunks of `pack src` sum to the length of the input. -/
theorem pack_unpack_terminate (src : List Int) :
    (∀ (max i : Nat) (dest lits : List Int), i < max →
        i < (packBody src max i dest lits).1 + 1
          ∧ (packBody src max i dest lits).1 + 1 ≤ max
          ∧ packLoop src max i dest lits
            = packLoop src max ((packBody src max i dest lits).1 + 1)
                (packBody src max i dest lits).2.1 (packBody src max i dest lits).2.2)
      ∧ (∀ (max i : Nat) (dest : List Int), i < max →
          i < (unpackBody src i dest).1 + 1
            ∧ unpackLoop src max i dest
              = unpackLoop src max ((unpackBody src i dest).1 + 1) (unpackBody src i dest).2)
      ∧ packIterate src.length src src.length 0 [] [] = some (pack src)
      ∧ unpackIterate src.length src src.length 0 [] = some (unpack src)
      ∧ (∀ cs : List Chunk, (∀ c ∈ cs, c.WellFormed) → pack src = encodeChunks cs →
          (cs.map (fun c => c.decode.length)).sum = src.length) := by
  refine ⟨?_, ?_, ?_, ?_, ?_⟩
  · intro max i dest lits hi
    obtain ⟨b1, b2⟩ := packBody_index src max i dest lits hi
    exact ⟨by omega, by omega, packLoop_body src max i dest lits hi⟩
  · intro max i dest hi
    have b1 := unpackBody_index src i dest
    exact ⟨by omega, unpackLoop_body src max i dest hi⟩
  · rw [packIterate_eq src src.length src.length 0 [] [] (by omega), pack_eq_packFrom]
    rfl
  · rw [unpackIterate_eq src src.length src.length 0 [] (by omega)]
    rfl
  · intro cs hcs h
    obtain ⟨ds, h1, h2, h3⟩ := packFrom_chunks src.length src [] rfl (fun b hb => by cases hb)
      (by simp) (fun _ => rfl)
    rw [pack_eq_packFrom, h1] at h
    have e := encodeChunks_injective ds cs (fun c hc => (h3 c hc).1) hcs h
    rw [e] at h2
    have hl := congrArg List.length h2
    rw [List.nil_append, List.length_map] at hl
    rw [← hl, decodeChunks, List.length_flatten, List.map_map]
    rfl

/-- Witness of `pack_unpack_terminate` on `[1, 2, 2, 2, 9]`: the first
iteration of each loop moves the index on, the loops end within five
iterations, and the chunks decode to `1 + 3 + 1` bytes. -/
theorem pack_unpack_terminate_witness :
    (0 < (packBody [1, 2, 2, 2, 9] 5 0 [] []).1 + 1
        ∧ (packBody [1, 2, 2, 2, 9] 5 0 [] []).1 + 1 ≤ 5)
      ∧ 0 < (unpackBody [1, 2, 2, 2, 9] 0 []).1 + 1
      ∧ packIterate 5 [1, 2, 2, 2, 9] 5 0 [] [] = some (pack [1, 2, 2, 2, 9])
      ∧ unpackIterate 5 [1, 2, 2, 2, 9] 5 0 [] = some (unpack [1, 2, 2, 2, 9])
      ∧ ([Chunk.literal [1], Chunk.run 3 2, Chunk.literal [9]].map
          (fun c => c.decode.length)).sum = 5 :=
  ⟨⟨((pack_unpack_terminate [1, 2, 2, 2, 9]).1 5 0 [] [] (by decide)).1,
      ((pack_unpack_terminate [1, 2, 2, 2, 9]).1 5 0 [] [] (by decide)).2.1⟩,
    ((pack_unpack_terminate [1, 2, 2, 2, 9]).2.1 5 0 [] (by decide)).1,
    (pack_unpack_terminate [1, 2, 2, 2, 9]).2.2.1,
    (pack_unpack_terminate [1, 2, 2, 2, 9]).2.2.2.1,
    (pack_unpack_terminate [1, 2, 2, 2, 9]).2.2.2.2
      [Chunk.literal [1], Chunk.run 3 2, Chunk.literal [9]] (by decide)
      (by simp [pack, packLoop, runLoop, _toUInt8Elem, _toUInt8, _literalToResult,
        MAX_LITERAL_LENGTH, encodeChunks, Chunk.encode])⟩

/-- Claim C12. Literal cap of 127: for every sequence `x` (of bytes, and of any
integers as well), in the reading of `pack x` as complete chunks every literal
chunk carries at most `MAX_LITERAL_LENGTH = 127` bytes: every control byte
that is non-negative as a signed byte is at most 126, and the control byte 127
of a 128-byte literal does not occur. -/
theorem pack_literal_cap (x : List Int) (cs : List Chunk)
    (hcs : ∀ c ∈ cs, c.WellFormed) (h : pack x = encodeChunks cs) :
    ∀ c ∈ cs, (∀ bytes, c = Chunk.literal bytes → bytes.length ≤ MAX_LITERAL_LENGTH)
      ∧ (0 ≤ _toInt8 c.control → _toInt8 c.control ≤ 126)
      ∧ c.control ≠ 127 := by
  have hs := pack_scan x cs hcs h
  have hp := packScan_packed x [] cs hs (by simp) (fun b hb => by cases hb)
  intro c hc
  obtain ⟨hw, hcap⟩ := hp c hc
  refine ⟨hcap, ?_⟩
  cases c with
  | literal d =>
    have hd := hcap d rfl
    obtain ⟨a1, _, _⟩ := hw
    unfold MAX_LITERAL_LENGTH at hd
    simp only [Chunk.control]
    rw [toInt8_of_small _ (by omega) (by omega)]
    omega
  | run n v =>
    obtain ⟨a1, a2, _⟩ := hw
    simp only [Chunk.control]
    rw [toInt8_of_large _ (by omega) (by omega)]
    omega

/-- Witness of `pack_literal_cap`: the output `[2, 1, 2, 3]` of `pack [1, 2, 3]`
read as one literal chunk. -/
theorem pack_literal_cap_witness :
    ([1, 2, 3] : List Int).length ≤ MAX_LITERAL_LENGTH
      ∧ (Chunk.literal [1, 2, 3]).control ≠ 127 :=
  ⟨(pack_literal_cap [1, 2, 3] [Chunk.literal [1, 2, 3]] (by decide)
      (by simp [pack, packLoop, runLoop, _toUInt8Elem, _toUInt8, _literalToResult,
        MAX_LITERAL_LENGTH, encodeChunks, Chunk.encode])
      (Chunk.literal [1, 2, 3]) (by simp)).1 [1, 2, 3] rfl,
    (pack_literal_cap [1, 2, 3] [Chunk.literal [1, 2, 3]] (by decide)
      (by simp [pack, packLoop, runLoop, _toUInt8Elem, _toUInt8, _literalToResult,
        MAX_LITERAL_LENGTH, encodeChunks, Chunk.encode])
      (Chunk.literal [1, 2, 3]) (by simp)).2.2⟩

/-- Claim C13. Runs take priority over literals: for every byte sequence `x`,
the output `pack x` is a sequence of complete chunks that decode to `x`, in
which no literal chunk contains two adjacent equal bytes, every byte emitted
in a literal chunk differs from the input byte after it, and every position
`i` with `x[i] = x[i + 1]` lies in a repeat chunk of copies of `x[i]`: it is
emitted as part of a repeat chunk, never as a literal.  In the loop itself, at
every index `i` with `x[i] = x[i + 1]`, whatever the state, the pending
literals are flushed as they are and a repeat chunk starting at `i` is
emitted. -/
theorem pack_runs_priority (x : List Int) (hx : ∀ b ∈ x, 0 ≤ b ∧ b ≤ 255) :
    (∃ cs : List Chunk, (∀ c ∈ cs, c.WellFormed) ∧ pack x = encodeChunks cs)
      ∧ (∀ cs : List Chunk, (∀ c ∈ cs, c.WellFormed) → pack x = encodeChunks cs →
          decodeChunks cs = x
            ∧ (∀ d, Chunk.literal d ∈ cs → List.Chain' (· ≠ ·) d)
            ∧ (∀ (cs1 : List Chunk) (d : List Int) (cs2 : List Chunk) (j : Nat),
                cs = cs1 ++ Chunk.literal d :: cs2 → j < d.length →
                x[(decodeChunks cs1).length + j]? = d[j]?
                  ∧ x[(decodeChunks cs1).length + j + 1]? ≠ x[(decodeChunks cs1).length + j]?)
            ∧ (∀ i : Nat, i + 1 < x.length → x[i]? = x[i + 1]? →
                ∃ (cs1 : List Chunk) (n : Nat) (v : Int) (cs2 : List Chunk),
                  cs = cs1 ++ Chunk.run n v :: cs2
                    ∧ (decodeChunks cs1).length ≤ i ∧ i < (decodeChunks cs1).length + n
                    ∧ x[i]? = some v))
      ∧ (∀ (i : Nat) (v : Int) (dest lits : List Int),
          x[i]? = some v → x[i + 1]? = some v →
          ∃ n : Nat, 2 ≤ n ∧ n ≤ 128 ∧ i + n ≤ x.length
            ∧ packLoop x x.length i dest lits
              = packLoop x x.length (i + n)
                  (dest ++ _literalToResult lits ++ [257 - (n : Int), v]) []) := by
  refine ⟨pack_reading_exists x, ?_, ?_⟩
  · intro cs hcs h
    have hs := pack_scan x cs hcs h
    have hdec : decodeChunks cs = x := by
      rw [packScan_decode x [] cs hs, List.nil_append, map_toUInt8_of_bytes x hx]
    have hlit : ∀ (cs1 : List Chunk) (d : List Int) (cs2 : List Chunk) (j : Nat),
        cs = cs1 ++ Chunk.literal d :: cs2 → j < d.length →
        x[(decodeChunks cs1).length + j]? = d[j]?
          ∧ x[(decodeChunks cs1).length + j + 1]? ≠ x[(decodeChunks cs1).length + j]? := by
      intro cs1 d cs2 j hsplit hj
      constructor
      · have e := decodeChunks_getElem? cs1 (Chunk.literal d) cs2 j hj
        rw [← hsplit, hdec] at e
        exact e
      · obtain ⟨s, e1, e2⟩ := packScan_split x [] cs hs cs1 _ cs2 hsplit (fun _ => rfl)
        obtain ⟨k, f1, f2, f3⟩ := packScan_head_literal _ _ _ e2 d cs2 rfl
        rw [List.length_nil, Nat.zero_add] at e1
        rw [List.nil_append, drop_bytes x s hx] at f1
        rw [drop_bytes x s hx] at f3
        have hk : d.length = k := by
          rw [f1, List.length_take]
          omega
        have := f3 j (by omega)
        rw [List.getElem?_drop, List.getElem?_drop] at this
        rw [e1]
        exact this
    refine ⟨hdec, packScan_literal_chain x [] cs hs (fun a _ => by simp), hlit, ?_⟩
    intro i hi heq
    obtain ⟨cs1, c, cs2, e1, e2, e3⟩ := chunk_at cs i (by rw [hdec]; omega)
    cases c with
    | literal d =>
      have hj : i - (decodeChunks cs1).length < d.length := by
        simp only [Chunk.decode] at e3
        omega
      have hp : (decodeChunks cs1).length + (i - (decodeChunks cs1).length) = i := by omega
      have := (hlit cs1 d cs2 _ e1 hj).2
      rw [hp] at this
      exact absurd heq.symm this
    | run n v =>
      have hn : (Chunk.run n v).decode.length = n := by
        simp only [Chunk.decode, List.length_replicate]
      rw [hn] at e3
      refine ⟨cs1, n, v, cs2, e1, e2, e3, ?_⟩
      have e := decodeChunks_getElem? cs1 (Chunk.run n v) cs2
        (i - (decodeChunks cs1).length) (by rw [hn]; omega)
      have hp : (decodeChunks cs1).length + (i - (decodeChunks cs1).length) = i := by omega
      rw [← e1, hdec, hp, Chunk.decode, List.getElem?_replicate, if_pos (by omega)] at e
      exact e
  · intro i v dest lits h1 h2
    have hi : i + 1 < x.length := by
      by_contra hlt
      rw [List.getElem?_eq_none (by omega)] at h2
      cases h2
    have hv := hx v (List.getElem?_mem h1)
    have e : _toUInt8Elem x[i]? = v := by
      rw [h1, toUInt8Elem_some, toUInt8_of_byte v hv.1 hv.2]
    have hq := packLoop_at_equal x i dest lits hi (by rw [h1, h2])
    rw [e] at hq
    exact hq

/-- Witness of `pack_runs_priority`: in `pack [1, 2, 2, 2, 9]`, read as a
literal, a repeat chunk and a literal, position 1 (where `x[1] = x[2]`) lies
in a repeat chunk. -/
theorem pack_runs_priority_witness :
    ∃ (cs1 : List Chunk) (n : Nat) (v : Int) (cs2 : List Chunk),
      [Chunk.literal [1], Chunk.run 3 2, Chunk.literal [9]] = cs1 ++ Chunk.run n v :: cs2
        ∧ (decodeChunks cs1).length ≤ 1 ∧ 1 < (decodeChunks cs1).length + n
        ∧ ([1, 2, 2, 2, 9] : List Int)[1]? = some v :=
  ((pack_runs_priority [1, 2, 2, 2, 9] (by decide)).2.1
    [Chunk.literal [1], Chunk.run 3 2, Chunk.literal [9]] (by decide)
    (by simp [pack, packLoop, runLoop, _toUInt8Elem, _toUInt8, _literalToResult,
      MAX_LITERAL_LENGTH, encodeChunks, Chunk.encode])).2.2.2 1 (by decide) rfl

/-- Claim C14. Run maximality: for every byte sequence `x`, the output `pack x`
is a sequence of complete chunks, and every repeat chunk in it, of `n` copies
of `v` after chunks that decode to `p` bytes, covers the `n` bytes of `x` from
`p` on, all equal to `v`; when `n < 128` the run is maximal: the input byte
right after it does not exist or is not `v`, so that a run is cut short only
at 128 bytes or at the end of the input.  Whatever `n` is, 128 included, the
scan resumes exactly at the cut point: the chunks after the repeat chunk are
`pack` of the input from `p + n` on, as the repeat chunk and the chunks after
it are `pack` of the input from `p` on. -/
theorem pack_run_maximal (x : List Int) (hx : ∀ b ∈ x, 0 ≤ b ∧ b ≤ 255) :
    (∃ cs : List Chunk, (∀ c ∈ cs, c.WellFormed) ∧ pack x = encodeChunks cs)
      ∧ (∀ (cs cs1 cs2 : List Chunk) (n : Nat) (v : Int),
          (∀ c ∈ cs, c.WellFormed) → pack x = encodeChunks cs →
          cs = cs1 ++ Chunk.run n v :: cs2 →
          2 ≤ n ∧ n ≤ 128
            ∧ (∀ j, j < n → x[(decodeChunks cs1).length + j]? = some v)
            ∧ (n < 128 → x[(decodeChunks cs1).length + n]? ≠ some v)
            ∧ (n = 128 ∨ (decodeChunks cs1).length + n = x.length
                ∨ ∃ w, x[(decodeChunks cs1).length + n]? = some w ∧ w ≠ v)
            ∧ encodeChunks (Chunk.run n v :: cs2) = pack (x.drop (decodeChunks cs1).length)
            ∧ encodeChunks cs2 = pack (x.drop ((decodeChunks cs1).length + n))
            ∧ decodeChunks cs2 = x.drop ((decodeChunks cs1).length + n)) := by
  refine ⟨pack_reading_exists x, ?_⟩
  intro cs cs1 cs2 n v hcs h hsplit
  have hs := pack_scan x cs hcs h
  have hdec : decodeChunks cs = x := by
    rw [packScan_decode x [] cs hs, List.nil_append, map_toUInt8_of_bytes x hx]
  obtain ⟨s, e1, e2⟩ := packScan_split x [] cs hs cs1 _ cs2 hsplit (fun _ => rfl)
  rw [List.length_nil, Nat.zero_add] at e1
  obtain ⟨r1, r2, r3, r4, r5⟩ := packScan_head_run _ _ _ e2 rfl n v cs2 rfl
  rw [List.getElem?_drop] at r4
  rw [List.drop_drop, ← e1] at r5
  rw [← e1] at e2 r4
  rw [List.length_drop] at r3
  have hn : (Chunk.run n v).decode.length = n := by
    simp only [Chunk.decode, List.length_replicate]
  have hlen : (decodeChunks cs1).length + n ≤ x.length := by
    have := congrArg List.length hdec
    rw [hsplit, decodeChunks_append, decodeChunks_cons, List.length_append,
      List.length_append, hn] at this
    omega
  refine ⟨r1, r2, ?_, r4, ?_, ?_, ?_, ?_⟩
  · intro j hj
    have e := decodeChunks_getElem? cs1 (Chunk.run n v) cs2 j (by rw [hn]; exact hj)
    rw [← hsplit, hdec, Chunk.decode, List.getElem?_replicate, if_pos hj] at e
    exact e
  · by_cases h128 : n = 128
    · exact Or.inl h128
    · by_cases hend : (decodeChunks cs1).length + n = x.length
      · exact Or.inr (Or.inl hend)
      · have hlt : (decodeChunks cs1).length + n < x.length := by omega
        refine Or.inr (Or.inr ⟨x[(decodeChunks cs1).length + n], ?_, ?_⟩)
        · exact List.getElem?_eq_getElem hlt
        · intro hw
          apply r4 (by omega)
          rw [List.getElem?_eq_getElem hlt, hw]
  · rw [pack_eq_packFrom, packScan_sound _ [] _ e2 (by simp)]
  · rw [pack_eq_packFrom, packScan_sound _ [] _ r5 (by simp)]
  · have e := decodeChunks_drop cs1 (Chunk.run n v) cs2
    rw [← hsplit, hdec, hn] at e
    exact e.symm

/-- Witness of `pack_run_maximal`: 130 copies of the byte 7 encode as a repeat
chunk of 128 copies, cut at 128 bytes, and the chunk after it is `pack` of the
two bytes that remain. -/
theorem pack_run_maximal_witness :
    encodeChunks [Chunk.run 2 7]
        = pack ((List.replicate 130 (7 : Int)).drop ((decodeChunks []).length + 128))
      ∧ decodeChunks [Chunk.run 2 7]
        = (List.replicate 130 (7 : Int)).drop ((decodeChunks []).length + 128) :=
  ⟨((pack_run_maximal (List.replicate 130 7)
      (fun b hb => by rw [List.eq_of_mem_replicate hb]; decide)).2
      [Chunk.run 128 7, Chunk.run 2 7] [] [Chunk.run 2 7] 128 7 (by decide)
      ((pack_eq_packFrom _).trans
        (packFrom_replicate_all 7 (by decide) (by decide) 2 (by decide) 1)) rfl).2.2.2.2.2.2.1,
    ((pack_run_maximal (List.replicate 130 7)
      (fun b hb => by rw [List.eq_of_mem_replicate hb]; decide)).2
      [Chunk.run 128 7, Chunk.run 2 7] [] [Chunk.run 2 7] 128 7 (by decide)
      ((pack_eq_packFrom _).trans
        (packFrom_replicate_all 7 (by decide) (by decide) 2 (by decide) 1)) rfl).2.2.2.2.2.2.2⟩

/-- Claim C15. Exact two's-complement conversions: for every integer `v` (of
32 bits or not), `_toUInt8 v` is the unique value in `[0, 255]` congruent to
`v` modulo 256, and the wrap to 32 bits does not change it; for every `u` in
`[0, 255]`, `_toInt8 u = u` when `u < 128` and `u - 256` otherwise, so that it
lies in `[-128, 127]`; the two are mutually inverse. -/
theorem toUInt8_toInt8_exact :
    (∀ v : Int, 0 ≤ _toUInt8 v ∧ _toUInt8 v ≤ 255 ∧ (256 : Int) ∣ (v - _toUInt8 v)
        ∧ (∀ w : Int, 0 ≤ w → w ≤ 255 → (256 : Int) ∣ (v - w) → w = _toUInt8 v)
        ∧ _toUInt8 (toInt32 v) = _toUInt8 v)
      ∧ (∀ u : Int, 0 ≤ u → u ≤ 255 →
          _toInt8 u = (if u < 128 then u else u - 256)
            ∧ -128 ≤ _toInt8 u ∧ _toInt8 u ≤ 127)
      ∧ (∀ u : Int, 0 ≤ u → u ≤ 255 → _toUInt8 (_toInt8 u) = u)
      ∧ (∀ s : Int, -128 ≤ s → s ≤ 127 → _toInt8 (_toUInt8 s) = s) := by
  refine ⟨?_, ?_, ?_, ?_⟩
  · intro v
    unfold _toUInt8 toInt32
    refine ⟨by omega, by omega, by omega, ?_, by omega⟩
    intro w h0 h1 h2
    omega
  · intro u h0 h1
    unfold _toInt8 toInt32
    split_ifs <;> omega
  · intro u h0 h1
    unfold _toUInt8 _toInt8 toInt32
    omega
  · intro s h0 h1
    unfold _toUInt8 _toInt8 toInt32
    omega

/-- Witness of `toUInt8_toInt8_exact` at `-3`, `253` and `-128`. -/
theorem toUInt8_toInt8_exact_witness :
    _toUInt8 (-3) = 253 ∧ _toInt8 253 = -3 ∧ _toUInt8 (_toInt8 253) = 253
      ∧ _toInt8 (_toUInt8 (-128)) = -128 :=
  ⟨(toUInt8_toInt8_exact.1 (-3)).2.2.2.1 253 (by decide) (by decide) (by decide) |>.symm,
    (toUInt8_toInt8_exact.2.1 253 (by decide) (by decide)).1,
    toUInt8_toInt8_exact.2.2.1 253 (by decide) (by decide),
    toUInt8_toInt8_exact.2.2.2 (-128) (by decide) (by decide)⟩

/-- Claim C17. Round trip modulo 256: for every finite sequence `x` of
integers, not only of bytes, `unpack (pack x)` is `x` with every element
masked by `& 0xFF`.  The run scan compares the masked current byte with the
unmasked `src[i + j]`, which only shortens a run: `[-1, -1, -1]` encodes as a
run of two and a literal, where `[255, 255, 255]` encodes as one run, and both
decode to `[255, 255, 255]`. -/
theorem unpack_pack_mod256 (x : List Int) :
    unpack (pack x) = x.map _toUInt8
      ∧ pack [-1, -1, -1] = [255, 255, 0, 255]
      ∧ pack [255, 255, 255] = [254, 255]
      ∧ unpack [255, 255, 0, 255] = [255, 255, 255]
      ∧ unpack [254, 255] = [255, 255, 255] := by
  have hgen : ∀ y : List Int, unpack (pack y) = y.map _toUInt8 := by
    intro y
    obtain ⟨cs, h1, h2, h3⟩ := packFrom_chunks y.length y [] rfl (fun b hb => by cases hb)
      (by simp) (fun _ => rfl)
    have h := unpack_encodeChunks cs [] (fun c hc => (h3 c hc).1)
    rw [List.append_nil, unpack_nil, List.append_nil, h2, List.nil_append, ← h1,
      ← pack_eq_packFrom] at h
    exact h
  have e1 : pack [-1, -1, -1] = [255, 255, 0, 255] := by
    simp [pack, packLoop, runLoop, _toUInt8Elem, _toUInt8, _literalToResult,
      MAX_LITERAL_LENGTH]
  have e2 : pack [255, 255, 255] = [254, 255] := by
    simp [pack, packLoop, runLoop, _toUInt8Elem, _toUInt8, _literalToResult,
      MAX_LITERAL_LENGTH]
  refine ⟨hgen x, e1, e2, ?_, ?_⟩
  · have := hgen [-1, -1, -1]
    rw [e1] at this
    exact this
  · have := hgen [255, 255, 255]
    rw [e2] at this
    exact this

/-- Claim C18. Worst-case expansion: for every sequence `x` of length `n` (of
bytes, and of any integers as well), the length of `pack x` is at most
`n + ⌈n / 3⌉`, written `n + (n + 2) / 3`; the bound is attained by
`[a, b, b, c]` with `a ≠ b` and `b ≠ c`, which encodes to the 6 bytes
`[0, a, 255, b, 0, c]`. -/
theorem pack_length_le (x : List Int) :
    (pack x).length ≤ x.length + (x.length + 2) / 3
      ∧ (∀ a b c : Int, 0 ≤ a ∧ a ≤ 255 → 0 ≤ b ∧ b ≤ 255 → 0 ≤ c ∧ c ≤ 255 →
          a ≠ b → b ≠ c →
          pack [a, b, b, c] = [0, a, 255, b, 0, c]
            ∧ (pack [a, b, b, c]).length = 6
            ∧ ([a, b, b, c].length + ([a, b, b, c].length + 2) / 3 = 6)) := by
  constructor
  · obtain ⟨cs, hcs⟩ := packScan_exists x.length x [] rfl (fun _ => rfl)
    have h1 := packScan_sound x [] cs hcs (by simp)
    have h2 := packScan_length x [] cs hcs
    rw [pack_eq_packFrom, h1]
    simpa using h2
  · intro a b c ha hb hc hab hbc
    have h := pack_literal_run_literal_eq a b c 2 ha hb hc hab hbc (by decide) (by decide)
    have e : a :: (List.replicate 2 b ++ [c]) = [a, b, b, c] := rfl
    rw [e] at h
    refine ⟨h, by rw [h]; rfl, by simp⟩

/-- Witness of `pack_length_le`: the bound is attained on `[1, 2, 2, 3]`. -/
theorem pack_length_le_witness :
    pack [1, 2, 2, 3] = [0, 1, 255, 2, 0, 3] ∧ (pack [1, 2, 2, 3]).length = 6
      ∧ (([1, 2, 2, 3] : List Int).length + (([1, 2, 2, 3] : List Int).length + 2) / 3 = 6) :=
  (pack_length_le []).2 1 2 3 (by decide) (by decide) (by decide) (by decide) (by decide)

/-- Claim C19. Actual behaviour on truncated input: `unpack` never raises, and
bytes missing after a control byte are decoded as `0`.  For `0 ≤ c ≤ 127` and
a byte sequence `d` of length less than `c + 1`,
`unpack ([c] ++ d) = d ++ (c + 1 - |d| zeros)`; for `129 ≤ c ≤ 255`,
`unpack [c]` is `257 - c` zeros.  On every input the length of the output is
the sum of the declared run lengths. -/
theorem unpack_truncated_zeros :
    (∀ src : List Int, unpackOutcome src = Outcome.ok (unpack src))
      ∧ (∀ (c : Int) (d : List Int), 0 ≤ c → c ≤ 127 → (∀ b ∈ d, 0 ≤ b ∧ b ≤ 255) →
          (d.length : Int) < c + 1 →
          unpack ([c] ++ d) = d ++ List.replicate ((c + 1).toNat - d.length) 0)
      ∧ (∀ c : Int, 129 ≤ c → c ≤ 255 → unpack [c] = List.replicate (257 - c).toNat 0)
      ∧ (∀ src : List Int, (unpack src).length = declaredLoop src src.length 0 0) := by
  refine ⟨fun _ => rfl, ?_, ?_, ?_⟩
  · intro c d h0 h1 hb hd
    rw [List.singleton_append, unpack_truncated_literal c d h0 h1 hd,
      map_toUInt8_of_bytes d hb]
  · intro c h0 h1
    exact unpack_truncated_repeat c h0 h1
  · intro src
    have h := unpackLoop_length src src.length _ 0 [] 0 rfl
    rw [List.length_nil, Nat.zero_add, Nat.add_zero] at h
    exact h

/-- Witness of `unpack_truncated_zeros`: a literal run of four bytes of which
two are present, and a repeat run of three copies without its data byte. -/
theorem unpack_truncated_zeros_witness :
    unpack ([3] ++ [7, 8]) = [7, 8] ++ List.replicate (((3 : Int) + 1).toNat - 2) 0
      ∧ unpack [254] = List.replicate ((257 : Int) - 254).toNat 0 :=
  ⟨unpack_truncated_zeros.2.1 3 [7, 8] (by decide) (by decide) (by decide) (by decide),
    unpack_truncated_zeros.2.2.1 254 (by decide) (by decide)⟩

/-- Claim C20, counterexample. The comment of `_toInt8` gives `-127 to 127` as
the range of its result; at the 8-bit unsigned value 128 the result is
`-128`. -/
theorem toInt8_documented_range_counterexample :
    (0 : Int) ≤ 128 ∧ (128 : Int) ≤ 255 ∧ _toInt8 128 = -128
      ∧ ¬ (-127 ≤ _toInt8 128 ∧ _toInt8 128 ≤ 127) := by
  decide

/-- Claim C20, amended. For every 8-bit unsigned value in `0 .. 255`,
`_toInt8` returns a signed value in the range `-128` to `127`, and `-128`
exactly at 128 (the value that `unpack` tests for and skips). -/
theorem toInt8_range (u : Int) (h0 : 0 ≤ u) (h1 : u ≤ 255) :
    -128 ≤ _toInt8 u ∧ _toInt8 u ≤ 127 ∧ (_toInt8 u = -128 ↔ u = 128) := by
  unfold _toInt8 toInt32
  omega

/-- Witness of `toInt8_range` at 128. -/
theorem toInt8_range_witness :
    -128 ≤ _toInt8 128 ∧ _toInt8 128 ≤ 127 ∧ (_toInt8 128 = -128 ↔ (128 : Int) = 128) :=
  toInt8_range 128 (by decide) (by decide)

end PackBits

namespace FaviconGenerator

/-! ## The claims on the size tables -/

/-- Claim C10. `GetRequiredFavoriteImageSizes` returns the union of
`REQUIRED_PNG_IMAGE_SIZES` and `REQUIRED_ICO_IMAGE_SIZES` with duplicates
removed, in strictly ascending order: it contains a size iff the size is in
one of the two lists, and equals
`[16, 24, 32, 48, 57, 64, 72, 96, 120, 128, 144, 152, 195, 228]` (32, present
in both lists, appears once). -/
theorem getRequiredFavoriteImageSizes_eq :
    GetRequiredFavoriteImageSizes
        = [16, 24, 32, 48, 57, 64, 72, 96, 120, 128, 144, 152, 195, 228]
      ∧ (∀ s : Int, s ∈ GetRequiredFavoriteImageSizes
          ↔ s ∈ REQUIRED_PNG_IMAGE_SIZES ∨ s ∈ REQUIRED_ICO_IMAGE_SIZES)
      ∧ List.Pairwise (· < ·) GetRequiredFavoriteImageSizes
      ∧ GetRequiredFavoriteImageSizes.Nodup
      ∧ GetRequiredFavoriteImageSizes.count 32 = 1
      ∧ 32 ∈ REQUIRED_PNG_IMAGE_SIZES ∧ 32 ∈ REQUIRED_ICO_IMAGE_SIZES := by
  have h : GetRequiredFavoriteImageSizes
      = [16, 24, 32, 48, 57, 64, 72, 96, 120, 128, 144, 152, 195, 228] := by decide
  refine ⟨h, ?_, ?_, ?_, ?_, by decide, by decide⟩
  · intro s
    rw [h]
    simp only [REQUIRED_PNG_IMAGE_SIZES, REQUIRED_ICO_IMAGE_SIZES, List.mem_cons,
      List.mem_singleton, List.not_mem_nil, or_false]
    omega
  · rw [h]
    decide
  · rw [h]
    decide
  · rw [h]
    decide

/-- Claim C16. File name lookup: for every size `s` listed in
`REQUIRED_PNG_IMAGE_SIZES`, `fileNameFromSize s` returns the name
`favicon-<s>.png` (the sizes of `PNG_FILE_INFOS` are exactly
`REQUIRED_PNG_IMAGE_SIZES`, each once); for every other size, the ICO-only
sizes 16, 24, 48 and 64 among them, it returns `null`. -/
theorem fileNameFromSize_spec :
    (∀ s ∈ REQUIRED_PNG_IMAGE_SIZES,
        fileNameFromSize s = some ("favicon-" ++ toString s ++ ".png"))
      ∧ PNG_FILE_INFOS.map (fun png => png.size) = REQUIRED_PNG_IMAGE_SIZES
      ∧ (PNG_FILE_INFOS.map (fun png => png.size)).Nodup
      ∧ (∀ s : Int, s ∉ REQUIRED_PNG_IMAGE_SIZES → fileNameFromSize s = none)
      ∧ fileNameFromSize 16 = none ∧ fileNameFromSize 24 = none
      ∧ fileNameFromSize 48 = none ∧ fileNameFromSize 64 = none := by
  have hnone : ∀ s : Int, s ∉ REQUIRED_PNG_IMAGE_SIZES → fileNameFromSize s = none := by
    intro s hs
    simp only [REQUIRED_PNG_IMAGE_SIZES, List.mem_cons, List.mem_singleton, List.not_mem_nil,
      or_false, not_or] at hs
    obtain ⟨h1, h2, h3, h4, h5, h6, h7, h8, h9, h10⟩ := hs
    simp only [fileNameFromSize, PNG_FILE_INFOS, someLoop]
    rw [if_neg (Ne.symm h1), if_neg (Ne.symm h2), if_neg (Ne.symm h3), if_neg (Ne.symm h4),
      if_neg (Ne.symm h5), if_neg (Ne.symm h6), if_neg (Ne.symm h7), if_neg (Ne.symm h8),
      if_neg (Ne.symm h9), if_neg (Ne.symm h10)]
  refine ⟨by decide, by decide, by decide, hnone, ?_, ?_, ?_, ?_⟩
  · exact hnone 16 (by decide)
  · exact hnone 24 (by decide)
  · exact hnone 48 (by decide)
  · exact hnone 64 (by decide)

/-- Witness of `fileNameFromSize_spec` at the PNG size 120 and at the size 17
that is in no list. -/
theorem fileNameFromSize_spec_witness :
    fileNameFromSize 120 = some ("favicon-" ++ toString (120 : Int) ++ ".png")
      ∧ fileNameFromSize 17 = none :=
  ⟨fileNameFromSize_spec.1 120 (by decide), fileNameFromSize_spec.2.2.2.1 17 (by decide)⟩

end FaviconGenerator
